import Mathlib

/-
Verification of the meta-learning core of NS-CQA (`S2SRL/libbots/metalearner.py`).

The development is a shallow embedding of `MetaLearner`.  The surrounding
tensor/autograd framework is treated as an external numeric substrate, exactly
as the design document does:

* `Auto`  — a micro autodiff (expression language with symbolic derivatives)
  together with a tensor store (tensors are ids into a value store, fresh ids
  model freshly allocated result tensors).  This embeds `update_params`
  (metalearner.py lines 92-156) and the weight-snapshot lifecycle of `sample`
  (lines 320-363) at the level where allocation and aliasing are observable.
* `RL`    — the REINFORCE-with-baseline `inner_loss` (lines 161-318) over an
  abstract network environment: the encoder/decoder calls, the stubbed
  `random.random()` reward draws and `F.log_softmax` are oracles supplied by
  the environment, indexed by the call site; everything else (the duplicate
  filter, the accumulators, the advantage broadcast, the final mean) is
  translated directly.
* `MAML`  — `sample` (lines 320-363) and `meta_update` (lines 47-64) composing
  `RL.innerLoss` with the gradient-oracle form of `update_params` and a
  concrete Adam step (`optim.Adam(..., eps=1e-3)`, default betas 0.9/0.999;
  the square root is an oracle parameter since it is a framework op).
* `TRPO`  — the trust-region `step` (lines 482-530): step-direction scaling by
  the Lagrange multiplier and the backtracking line search.

Floating point numbers are modelled as rationals.  The Python value `0.0`
returned by `inner_loss` when no sample is kept is a float, not a tensor;
`RL.LossVal` keeps that distinction because `torch.stack` / `autograd.grad`
reject the float.
-/

/-! ## Generic list helpers -/

def zipW3 (f : α → β → γ → δ) : List α → List β → List γ → List δ
  | a :: as, b :: bs, c :: cs => f a b c :: zipW3 f as bs cs
  | _, _, _ => []

/-! ## `Auto`: micro autodiff over a tensor store

Tensors are ids (indices) into a store of rational values; allocating the
result of an arithmetic op appends a fresh cell.  A loss is an expression
over named leaf parameters, which gives `torch.autograd.grad` an exact
meaning including its `allow_unused=False` behaviour and the distinction
between `create_graph=True` (gradients stay differentiable expressions) and
detached constant gradients. -/

namespace Auto

inductive Expr where
  | const (q : ℚ)
  | var (n : String)
  | add (a b : Expr)
  | mul (a b : Expr)
  | neg (a : Expr)
  deriving DecidableEq

def evalE (ρ : String → ℚ) : Expr → ℚ
  | .const q => q
  | .var n => ρ n
  | .add a b => evalE ρ a + evalE ρ b
  | .mul a b => evalE ρ a * evalE ρ b
  | .neg a => -evalE ρ a

/-- whether the named parameter occurs in the loss graph (torch: "appears
in the graph"). -/
def occursE (x : String) : Expr → Bool
  | .const _ => false
  | .var n => x == n
  | .add a b => occursE x a || occursE x b
  | .mul a b => occursE x a || occursE x b
  | .neg a => occursE x a

/-- symbolic derivative of the loss with respect to the named parameter. -/
def derivE (x : String) : Expr → Expr
  | .const _ => .const 0
  | .var n => if x == n then .const 1 else .const 0
  | .add a b => .add (derivE x a) (derivE x b)
  | .mul a b => .add (.mul (derivE x a) b) (.mul a (derivE x b))
  | .neg a => .neg (derivE x a)

/-- a tensor store: cell `i` holds the value of tensor id `i`. -/
abbrev Store := List ℚ

/-- a weight mapping: parameter name to tensor id (`names_weights_copy`). -/
abbrev WeightsRef := List (String × Nat)

def readW (σ : Store) (wr : WeightsRef) : List (String × ℚ) :=
  wr.map fun p => (p.1, σ.getD p.2 0)

def envOf (σ : Store) (wr : WeightsRef) : String → ℚ :=
  fun n => ((wr.lookup n).map fun i => σ.getD i 0).getD 0

/-- Model of `torch.autograd.grad(outputs, inputs, create_graph=...)` as used
at metalearner.py:117.  `allow_unused` is left at its default `False`, so an
input that does not appear in the loss graph raises a RuntimeError.  With
`create_graph = true` the returned gradients are themselves differentiable
graphs (symbolic derivatives); otherwise they are detached constants of the
same value. -/
def autogradGrad (createGraph : Bool) (loss : Expr) (ρ : String → ℚ)
    (inputs : List String) : Except String (List Expr) :=
  if inputs.all (fun n => occursE n loss) then
    .ok (inputs.map fun n =>
      if createGraph then derivE n loss else Expr.const (evalE ρ (derivE n loss)))
  else
    .error "one of the differentiated tensors was not used in the graph"

/-- the name-to-id mapping of the freshly allocated result tensors: the new
cells are appended to the store starting at id `base`. -/
def freshRefs (base : Nat) : WeightsRef → WeightsRef
  | [] => []
  | p :: ps => (p.1, base) :: freshRefs (base + 1) ps

/-- Embedding of `MetaLearner.update_params` (metalearner.py lines 92-156):
`grads = torch.autograd.grad(inner_loss, names_weights_copy.values(),
create_graph=not first_order)` followed by
`updated[key] = names_weights_copy[key] - step_size * grads[key]`.
Each updated weight is a freshly allocated tensor appended to the store; the
returned triple is the grown store, the new name-to-id mapping, and the
gradient graphs that were used. -/
def updateParams (σ : Store) (innerLossE : Expr) (namesWeightsCopy : WeightsRef)
    (stepSize : ℚ) (firstOrder : Bool) : Except String (Store × WeightsRef × List Expr) :=
  let ρ := envOf σ namesWeightsCopy
  match autogradGrad (!firstOrder) innerLossE ρ (namesWeightsCopy.map Prod.fst) with
  | .error e => .error e
  | .ok grads =>
      let newVals := List.zipWith
        (fun (p : String × Nat) g => σ.getD p.2 0 - stepSize * evalE ρ g)
        namesWeightsCopy grads
      .ok (σ ++ newVals, freshRefs σ.length namesWeightsCopy, grads)

/-- the gradient graphs `autograd.grad` hands back on success. -/
def gradsOf (cg : Bool) (loss : Expr) (ρ : String → ℚ) (wr : WeightsRef) : List Expr :=
  wr.map fun p => if cg then derivE p.1 loss else .const (evalE ρ (derivE p.1 loss))

/-- the values of the updated weights: input value minus step size times the
gradient of the loss at the input weights. -/
def newValsOf (σ : Store) (loss : Expr) (wr : WeightsRef) (step : ℚ) : List ℚ :=
  wr.map fun p => σ.getD p.2 0 - step * evalE (envOf σ wr) (derivE p.1 loss)

/-! ### Weight-snapshot lifecycle of `sample` over the tensor store (C6)

`sample` (metalearner.py lines 320-363) is embedded here at the granularity
that decides aliasing: which tensor ids each snapshot holds and which store
cells are written.  The inner loss itself is irrelevant to the lifecycle, so
each task supplies its loss graph as an oracle function of the current weight
values. -/

structure NParam where
  name : String
  tid : Nat
  requiresGrad : Bool
  deriving DecidableEq

/-- Embedding of `get_inner_loop_parameter_dict` (metalearner.py lines 66-81):
keep the parameters with `requires_grad`; `param.to(device=self.device)` with
the parameter already on the device returns the same tensor object — the id
is unchanged, no clone happens (the `.clone()` variant is commented out in the
source). -/
def getInnerLoopParameterDict (params : List NParam) : WeightsRef :=
  (params.filter (·.requiresGrad)).map fun p => (p.name, p.tid)

/-- Modelled from the spec: `insert_new_parameter` is defined in the network
module, which is not under src/.  Per the design notes it performs "dynamic
parameter-dictionary mutation (insert-new-parameter side effects on the
network object)": the network object's parameter dictionary is re-bound to
the given weights (requires_grad true, matching the `True` argument at the
call site); no tensor cell is written. -/
def insertNewParameter (w : WeightsRef) : List NParam :=
  w.map fun p => ⟨p.1, p.2, true⟩

/-- a task for the lifecycle model: the inner-loss graph as an oracle of the
current weight values (the decodes and rewards of `inner_loss` are folded
into it). -/
structure TaskEnvST where
  mkLossE : List (String × ℚ) → Expr

/-- the per-task weight snapshots: the network parameters at the start of the
task, the freshly derived copy, and the copies after inner steps 1 and 2. -/
structure TaskTrace where
  netBefore : List NParam
  w0 : WeightsRef
  w1 : WeightsRef
  w2 : WeightsRef
  deriving DecidableEq

/-- Embedding of the weight flow of one iteration of the task loop of
`sample` (metalearner.py lines 331-361): derive the inner-loop dict from the
current network parameters, evaluate the inner loss (which re-binds the
network parameters to the passed weights via `insert_new_parameter`), apply
`update_params`, evaluate the inner loss again, apply `update_params` again,
and evaluate the meta loss under the twice-updated weights.  Only the
re-binding performed by the third `inner_loss` call is observable at task
granularity, so the network leaves the step re-bound to `w2`. -/
def taskStepST (fastLr : ℚ) (fo : Bool) (t : TaskEnvST) (σ : Store)
    (net : List NParam) : Except String (Store × List NParam × TaskTrace) :=
  let w0 := getInnerLoopParameterDict net
  let l0 := t.mkLossE (readW σ w0)
  match updateParams σ l0 w0 fastLr fo with
  | .error e => .error e
  | .ok (σ1, w1, _) =>
    let l1 := t.mkLossE (readW σ1 w1)
    match updateParams σ1 l1 w1 fastLr fo with
    | .error e => .error e
    | .ok (σ2, w2, _) => .ok (σ2, insertNewParameter w2, ⟨net, w0, w1, w2⟩)

/-- Embedding of the weight flow of `sample` (metalearner.py lines 320-363):
the task loop, recording every per-task snapshot triple. -/
def sampleST (fastLr : ℚ) (fo : Bool) :
    List TaskEnvST → Store → List NParam →
      Except String (Store × List NParam × List TaskTrace)
  | [], σ, net => .ok (σ, net, [])
  | t :: ts, σ, net =>
    match taskStepST fastLr fo t σ net with
    | .error e => .error e
    | .ok (σ2, net2, tr) =>
      match sampleST fastLr fo ts σ2 net2 with
      | .error e => .error e
      | .ok (σf, netf, trs) => .ok (σf, netf, tr :: trs)

/-- each trace's `netBefore` is the network parameter dictionary current at
that task's start: the initial one for the first task, and the one re-bound
to the previous task's twice-updated weights afterwards. -/
def tracesChained : List NParam → List TaskTrace → Prop
  | _, [] => True
  | net, tr :: trs => tr.netBefore = net ∧ tracesChained (insertNewParameter tr.w2) trs

def idsOf (wr : WeightsRef) : List Nat := wr.map Prod.snd

end Auto

/-! ## `RL`: `inner_loss` (metalearner.py lines 161-318)

REINFORCE with a self-critic baseline.  The network ops
(`encode_context`, `decode_chain_argmax`, `decode_chain_sampling`),
`F.log_softmax` and the stubbed `random.random()` reward draws are oracles of
a `NetEnv`, indexed by their call site (the example index of `input_batch`
and the draw number of the `self.samples` loop); `establish_support_set` with
`N=0` wraps the task into a single batch, whose packed rows are the
`numExamples` examples.  Weight mappings are passed through to the decode
oracles (the net is re-bound to them via `insert_new_parameter`). -/

namespace RL

abbrev W := List (String × ℚ)

/-- Modelled from the spec: the network abstraction is an external
collaborator (spec sections 2 and 6; `model.py` is not under src/), exposing
encode/decode operations; the stubbed `random.random()` rewards and
`F.log_softmax` are framework calls.  All are oracles indexed by their call
site: the example row of the packed batch and the draw number. -/
structure NetEnv where
  numExamples : Nat
  decodeChainArgmax : W → Nat → List (List ℚ) × List Nat
  decodeChainSampling : W → Nat → Nat → List (List ℚ) × List Nat
  argmaxReward : Nat → ℚ
  sampleReward : Nat → Nat → ℚ
  logSoftmaxAt : List ℚ → Nat → ℚ

/-- Modelled from the spec: `utils.duplicate` (the utils module is not under
src/) — a stochastic sample "exactly duplicates a previously kept sample",
"identical token sequence": equality of the token id sequences. -/
def duplicate (a b : List Nat) : Bool := a == b

/-- the accumulators of `inner_loss`: `net_policies`, `net_actions`,
`net_advantages`, `total_samples`, `skipped_samples`. -/
structure GAcc where
  netPolicies : List (List (List ℚ))
  netActions : List Nat
  netAdvantages : List ℚ
  totalSamples : Nat
  skippedSamples : Nat
  deriving DecidableEq

/-- one iteration of the `for _ in range(self.samples)` loop (lines 229-281):
decode a stochastic sample, count it, skip it if its action sequence
duplicates one in `action_memory`, otherwise remember it and append its
logits, its actions, and its broadcast advantage
`[sample_reward - argmax_reward] * len(actions)`. -/
def drawStep (env : NetEnv) (w : W) (idx : Nat) (argmaxR : ℚ)
    (st : List (List Nat) × GAcc) (k : Nat) : List (List Nat) × GAcc :=
  let mem := st.1
  let acc := st.2
  let rSample := (env.decodeChainSampling w idx k).1
  let acts := (env.decodeChainSampling w idx k).2
  let acc1 := { acc with totalSamples := acc.totalSamples + 1 }
  if mem.any fun m => duplicate m acts then
    (mem, { acc1 with skippedSamples := acc1.skippedSamples + 1 })
  else
    (mem ++ [acts],
     { acc1 with
        netPolicies := acc1.netPolicies ++ [rSample],
        netActions := acc1.netActions ++ acts,
        netAdvantages := acc1.netAdvantages ++
          List.replicate acts.length (env.sampleReward idx k - argmaxR) })

/-- one iteration of the example loop (lines 186-283): argmax decode and
baseline reward draw, then the stochastic draws with a fresh per-example
`action_memory`. -/
def exampleStep (env : NetEnv) (w : W) (samples : Nat) (acc : GAcc) (idx : Nat) : GAcc :=
  let _ := env.decodeChainArgmax w idx
  let argmaxR := env.argmaxReward idx
  ((List.range samples).foldl (drawStep env w idx argmaxR) ([], acc)).2

def innerLossAcc (env : NetEnv) (samples : Nat) (w : W) : GAcc :=
  (List.range env.numExamples).foldl (exampleStep env w samples) ⟨[], [], [], 0, 0⟩

/-- a Python number returned by `inner_loss`: the loss tensor, or the plain
float `0.0` of line 289. -/
inductive LossVal where
  | tensor (q : ℚ)
  | flt (q : ℚ)
  deriving DecidableEq

/-- Embedding of `inner_loss` (lines 161-318).  After the loops: if
`net_policies` is empty, return the float `0.0` (with a log notice);
otherwise concatenate the logit groups, take each collected token's
log-softmax at its sampled action, weight by the advantage, and return the
negated mean.  (When every kept decode produced zero tokens, torch's mean of
an empty tensor is NaN; rationals have no NaN, so this model yields 0 by
division by zero — the claims' theorems assume at least one collected
token.) -/
def innerLoss (env : NetEnv) (samples : Nat) (w : W) : LossVal × Nat × Nat :=
  let acc := innerLossAcc env samples w
  if acc.netPolicies = [] then
    (.flt 0, acc.totalSamples, acc.skippedSamples)
  else
    let rows := acc.netPolicies.flatten
    let n := acc.netActions.length
    let terms := (List.range n).map fun j =>
      acc.netAdvantages.getD j 0 *
        env.logSoftmaxAt (rows.getD j []) (acc.netActions.getD j 0)
    (.tensor (-(terms.sum / (n : ℚ))), acc.totalSamples, acc.skippedSamples)

/-! spec-side description of the same computation, stated independently of
the fold: a draw is kept iff it is the first occurrence of its action
sequence among the example's draws. -/

def actsAt (env : NetEnv) (w : W) (idx k : Nat) : List Nat :=
  (env.decodeChainSampling w idx k).2

def logitsAt (env : NetEnv) (w : W) (idx k : Nat) : List (List ℚ) :=
  (env.decodeChainSampling w idx k).1

/-- the advantage every token of a kept draw receives:
`sample_reward - argmax_reward`. -/
def advOf (env : NetEnv) (idx k : Nat) : ℚ :=
  env.sampleReward idx k - env.argmaxReward idx

def isFirstOcc (env : NetEnv) (w : W) (idx k : Nat) : Bool :=
  (List.range k).all fun j => !(actsAt env w idx j == actsAt env w idx k)

def keptUpTo (env : NetEnv) (w : W) (idx k : Nat) : List Nat :=
  (List.range k).filter (isFirstOcc env w idx)

/-- the draws of an example that are kept (not skipped as duplicates). -/
def keptDraws (env : NetEnv) (w : W) (samples idx : Nat) : List Nat :=
  keptUpTo env w idx samples

def memSpec (env : NetEnv) (w : W) (idx k : Nat) : List (List Nat) :=
  (keptUpTo env w idx k).map (actsAt env w idx)

def polSpec (env : NetEnv) (w : W) (idx k : Nat) : List (List (List ℚ)) :=
  (keptUpTo env w idx k).map (logitsAt env w idx)

def actSpec (env : NetEnv) (w : W) (idx k : Nat) : List Nat :=
  (keptUpTo env w idx k).flatMap (actsAt env w idx)

def advSpec (env : NetEnv) (w : W) (idx k : Nat) : List ℚ :=
  (keptUpTo env w idx k).flatMap fun j =>
    List.replicate (actsAt env w idx j).length (advOf env idx j)

def dupCount (env : NetEnv) (w : W) (idx k : Nat) : Nat :=
  ((List.range k).filter fun j => !(isFirstOcc env w idx j)).length

def specPolicies (env : NetEnv) (w : W) (samples : Nat) : List (List (List ℚ)) :=
  (List.range env.numExamples).flatMap fun idx => polSpec env w idx samples

def specActions (env : NetEnv) (w : W) (samples : Nat) : List Nat :=
  (List.range env.numExamples).flatMap fun idx => actSpec env w idx samples

def specAdvantages (env : NetEnv) (w : W) (samples : Nat) : List ℚ :=
  (List.range env.numExamples).flatMap fun idx => advSpec env w idx samples

def specSkipped (env : NetEnv) (w : W) (samples : Nat) : Nat :=
  ((List.range env.numExamples).map fun idx => dupCount env w idx samples).sum

/-- one record per kept draw: its logit rows, its sampled actions, and its
broadcast advantages. -/
def specBlocks (env : NetEnv) (w : W) (samples : Nat) :
    List (List (List ℚ) × List Nat × List ℚ) :=
  (List.range env.numExamples).flatMap fun idx =>
    (keptDraws env w samples idx).map fun k =>
      (logitsAt env w idx k, actsAt env w idx k,
       List.replicate (actsAt env w idx k).length (advOf env idx k))

/-- the advantage-weighted log-probability terms of the loss, written per
kept draw and per token: `(sample_reward - argmax_reward)` times the
log-softmax of the token's logit row at the sampled action. -/
def specTerms (env : NetEnv) (w : W) (samples : Nat) : List ℚ :=
  (List.range env.numExamples).flatMap fun idx =>
    (keptDraws env w samples idx).flatMap fun k =>
      (List.range (actsAt env w idx k).length).map fun t =>
        advOf env idx k *
          env.logSoftmaxAt ((logitsAt env w idx k).getD t [])
            ((actsAt env w idx k).getD t 0)

end RL

/-- a concrete environment for witnesses: one example, two distinct draws. -/
def envC8 : RL.NetEnv :=
  { numExamples := 1
    decodeChainArgmax := fun _ _ => ([], [])
    decodeChainSampling := fun _ _ k => if k = 0 then ([[1, 0]], [0]) else ([[0, 1]], [1])
    argmaxReward := fun _ => 1/2
    sampleReward := fun _ k => (k : ℚ)
    logSoftmaxAt := fun row a => row.getD a 0 }

namespace RL

def isTensor : LossVal → Bool
  | .tensor _ => true
  | .flt _ => false

def tensorVal : LossVal → ℚ
  | .tensor q => q
  | .flt q => q

end RL

/-! ## `MAML`: `sample` (metalearner.py lines 320-363) and `meta_update`
(lines 47-64)

`sample` is embedded at the value level: the autograd gradients that
`update_params` consumes are the oracle `gradAt` of each task environment
(their store-level semantics is `Auto.updateParams`), and `inner_loss` is the
concrete `RL.innerLoss`.  `meta_update` is `optim.Adam(net.parameters(),
lr=meta_optimizer_lr, eps=1e-3)` with the default betas 0.9/0.999:
`zero_grad`, `backward` (accumulation into the cleared buffers), one
`optimizer.step()`; the square root is an oracle parameter. -/

namespace MAML

structure NParamV where
  name : String
  val : ℚ
  requiresGrad : Bool
  deriving DecidableEq

/-- Embedding of `get_inner_loop_parameter_dict` (lines 66-81) at value
level: the `requires_grad` parameters, by name. -/
def getInnerLoopParameterDict (ps : List NParamV) : RL.W :=
  (ps.filter (·.requiresGrad)).map fun p => (p.name, p.val)

/-- a task of the batch: its network environment and the autograd gradient
oracle — the value of `torch.autograd.grad(inner_loss, w.values())` for the
task's inner loss evaluated at weights `w`. -/
structure TaskEnv where
  net : RL.NetEnv
  gradAt : RL.W → String → ℚ

/-- the update rule of `update_params` (line 142) at value level: each
parameter becomes `parameter - step_size * grad`. -/
def stepW (stepSize : ℚ) (env : TaskEnv) (w : RL.W) : RL.W :=
  w.map fun p => (p.1, p.2 - stepSize * env.gradAt w p.1)

/-- Embedding of `update_params` (lines 92-156) at the gradient-oracle
level: `torch.autograd.grad` on the Python float `0.0` (the empty-sample
return of `inner_loss`) raises a TypeError; on a tensor loss the updated
mapping is `stepW`. -/
def updateParamsO (env : TaskEnv) (innerLossV : RL.LossVal) (w : RL.W)
    (stepSize : ℚ) : Except String RL.W :=
  match innerLossV with
  | .flt _ => .error "autograd.grad expects a tensor loss"
  | .tensor _ => .ok (stepW stepSize env w)

/-- Modelled from the spec: `insert_new_parameter` (network module, not under
src/) re-binds the network parameter dictionary to the given weights with
`requires_grad` set (the `True` argument at the call sites). -/
def insertNewParameter (w : RL.W) : List NParamV := w.map fun p => ⟨p.1, p.2, true⟩

/-- `torch.stack` then elementwise collection: raises on an empty list and on
a non-tensor element. -/
def tensorVals : List RL.LossVal → Except String (List ℚ)
  | [] => .ok []
  | .tensor q :: ls => (tensorVals ls).map fun vs => q :: vs
  | .flt _ :: _ => .error "stack expects each element to be a tensor"

def torchStack (ls : List RL.LossVal) : Except String (List ℚ) :=
  if ls.isEmpty then .error "stack expects a non-empty list of tensors"
  else tensorVals ls

/-- `torch.mean` of the stacked scalar losses. -/
def torchMean (vs : List ℚ) : ℚ := vs.sum / (vs.length : ℚ)

/-- one iteration of the task loop of `sample` (lines 331-361): inner loss at
the fresh copy `w0`, update, inner loss at `w1`, update, meta loss at `w2`.
The third evaluation's counts are local variables that are never added to the
accumulators; the network leaves the iteration re-bound to `w2` by the third
`inner_loss` call's `insert_new_parameter`. -/
def sampleTask (samples : Nat) (fastLr : ℚ) (env : TaskEnv) (net : List NParamV) :
    Except String (List NParamV × RL.LossVal × Nat × Nat) :=
  let w0 := getInnerLoopParameterDict net
  let r0 := RL.innerLoss env.net samples w0
  match updateParamsO env r0.1 w0 fastLr with
  | .error e => .error e
  | .ok w1 =>
    let r1 := RL.innerLoss env.net samples w1
    match updateParamsO env r1.1 w1 fastLr with
    | .error e => .error e
    | .ok w2 =>
      let r2 := RL.innerLoss env.net samples w2
      .ok (insertNewParameter w2, r2.1, r0.2.1 + r1.2.1, r0.2.2 + r1.2.2)

/-- the task loop of `sample` with its accumulators `task_losses`,
`total_samples`, `skipped_samples`. -/
def sampleLoop (samples : Nat) (fastLr : ℚ) :
    List TaskEnv → List NParamV → List RL.LossVal → Nat → Nat →
      Except String (List RL.LossVal × Nat × Nat)
  | [], _, losses, tot, skip => .ok (losses, tot, skip)
  | env :: ts, net, losses, tot, skip =>
    match sampleTask samples fastLr env net with
    | .error e => .error e
    | .ok (net2, ml, t, sk) =>
      sampleLoop samples fastLr ts net2 (losses ++ [ml]) (tot + t) (skip + sk)

/-- Embedding of `sample` (lines 320-363): run the task loop, then
`meta_losses = torch.mean(torch.stack(task_losses))`, returning the mean
meta-loss and the accumulated counts. -/
def sample (tasks : List TaskEnv) (samples : Nat) (fastLr : ℚ)
    (net : List NParamV) : Except String (ℚ × Nat × Nat) :=
  match sampleLoop samples fastLr tasks net [] 0 0 with
  | .error e => .error e
  | .ok (taskLosses, tot, skip) =>
    match torchStack taskLosses with
    | .error e => .error e
    | .ok vs => .ok (torchMean vs, tot, skip)

/-! spec-side recursion spelling out the per-task sequence of the claim. -/

def taskW0 (net : List NParamV) : RL.W := getInnerLoopParameterDict net

def taskW1 (fastLr : ℚ) (env : TaskEnv) (net : List NParamV) : RL.W :=
  stepW fastLr env (taskW0 net)

def taskW2 (fastLr : ℚ) (env : TaskEnv) (net : List NParamV) : RL.W :=
  stepW fastLr env (taskW1 fastLr env net)

/-- whether every `inner_loss` evaluation of the run yields a tensor loss
(i.e. keeps at least one stochastic sample). -/
def lossesOk (samples : Nat) (fastLr : ℚ) : List TaskEnv → List NParamV → Bool
  | [], _ => true
  | env :: ts, net =>
    RL.isTensor (RL.innerLoss env.net samples (taskW0 net)).1 &&
    RL.isTensor (RL.innerLoss env.net samples (taskW1 fastLr env net)).1 &&
    RL.isTensor (RL.innerLoss env.net samples (taskW2 fastLr env net)).1 &&
    lossesOk samples fastLr ts (insertNewParameter (taskW2 fastLr env net))

/-- the meta losses, task by task: inner loss at `w0` under the current
shared weights, one update, inner loss at `w1`, a second update, meta loss at
`w2`; the shared weights seen by the next task are `w2` (re-bound by
`insert_new_parameter`). -/
def specMetas (samples : Nat) (fastLr : ℚ) :
    List TaskEnv → List NParamV → List RL.LossVal
  | [], _ => []
  | env :: ts, net =>
    (RL.innerLoss env.net samples (taskW2 fastLr env net)).1 ::
      specMetas samples fastLr ts (insertNewParameter (taskW2 fastLr env net))

/-- the total-samples count accumulated by `sample`: only the two pre-update
`inner_loss` evaluations of each task contribute. -/
def specTotals (samples : Nat) (fastLr : ℚ) :
    List TaskEnv → List NParamV → Nat
  | [], _ => 0
  | env :: ts, net =>
    (RL.innerLoss env.net samples (taskW0 net)).2.1 +
      (RL.innerLoss env.net samples (taskW1 fastLr env net)).2.1 +
      specTotals samples fastLr ts (insertNewParameter (taskW2 fastLr env net))

/-- the skipped-samples count accumulated by `sample`: only the two
pre-update `inner_loss` evaluations of each task contribute. -/
def specSkips (samples : Nat) (fastLr : ℚ) :
    List TaskEnv → List NParamV → Nat
  | [], _ => 0
  | env :: ts, net =>
    (RL.innerLoss env.net samples (taskW0 net)).2.2 +
      (RL.innerLoss env.net samples (taskW1 fastLr env net)).2.2 +
      specSkips samples fastLr ts (insertNewParameter (taskW2 fastLr env net))

/-! the optimizer state and `meta_update`. -/

structure OptSt where
  ps : List ℚ
  gs : List ℚ
  ms : List ℚ
  vs : List ℚ
  t : Nat
  deriving DecidableEq

/-- `optimizer.zero_grad()`: clears every gradient buffer. -/
def zeroGradOpt (st : OptSt) : OptSt := { st with gs := st.gs.map fun _ => 0 }

/-- `loss.backward()`: accumulates the gradient of the loss into the
buffers (`x.grad += dloss/dx`); the gradient vector itself is computed by the
autograd substrate. -/
def backwardAdd (dLoss : List ℚ) (st : OptSt) : OptSt :=
  { st with gs := List.zipWith (· + ·) st.gs dLoss }

/-- one `optimizer.step()` of `optim.Adam(..., eps=1e-3)` with the default
betas (0.9, 0.999): first and second moment updates, bias correction, and the
parameter update `p - lr * mhat / (sqrt(vhat) + eps)`; `sqrtF` is the
framework square root. -/
def adamStep (lr eps : ℚ) (sqrtF : ℚ → ℚ) (st : OptSt) : OptSt :=
  let t1 := st.t + 1
  let ms1 := List.zipWith (fun m g => (9/10) * m + (1/10) * g) st.ms st.gs
  let vs1 := List.zipWith (fun v g => (999/1000) * v + (1/1000) * (g * g)) st.vs st.gs
  let ps1 := zipW3 (fun p m v =>
      p - lr * (m / (1 - (9/10) ^ t1)) / (sqrtF (v / (1 - (999/1000) ^ t1)) + eps))
    st.ps ms1 vs1
  { ps := ps1, gs := st.gs, ms := ms1, vs := vs1, t := t1 }

/-- Embedding of `meta_update` (lines 47-64): `zero_grad`, `backward`,
`optimizer.step()`. -/
def metaUpdate (lr eps : ℚ) (sqrtF : ℚ → ℚ) (dLoss : List ℚ) (st : OptSt) : OptSt :=
  adamStep lr eps sqrtF (backwardAdd dLoss (zeroGradOpt st))

end MAML

/-- the network environment of the C1 witness: one example, one draw of one
token, reward 1 against baseline 0, log-softmax oracle constantly -1, so
every inner loss is the tensor 1. -/
def envC1n : RL.NetEnv :=
  { numExamples := 1
    decodeChainArgmax := fun _ _ => ([], [])
    decodeChainSampling := fun _ _ _ => ([[0, 0]], [0])
    argmaxReward := fun _ => 0
    sampleReward := fun _ _ => 1
    logSoftmaxAt := fun _ _ => -1 }

/-- the network environment of the C10 witness: the decodes depend on the
weights; under the twice-updated weights (value 0) the two draws coincide, so
the meta-loss evaluation skips one sample — which must not appear in the
returned counts. -/
def envC10n : RL.NetEnv :=
  { numExamples := 1
    decodeChainArgmax := fun _ _ => ([], [])
    decodeChainSampling := fun w _ k =>
      if (w.headD ("", 1)).2 = 0 then ([[0, 0]], [5]) else ([[0, 0]], [k])
    argmaxReward := fun _ => 0
    sampleReward := fun _ _ => 1
    logSoftmaxAt := fun _ _ => -1 }

/-- the network environment of the C5 evidence: one example but a zero sample
count, so no stochastic sample exists and `net_policies` stays empty. -/
def envC5n : RL.NetEnv :=
  { numExamples := 1
    decodeChainArgmax := fun _ _ => ([], [])
    decodeChainSampling := fun _ _ _ => ([], [])
    argmaxReward := fun _ => 0
    sampleReward := fun _ _ => 0
    logSoftmaxAt := fun _ _ => 0 }

/-! ## `TRPO`: the trust-region meta-optimization `step`
(metalearner.py lines 482-530)

Parameter vectors are lists of rationals (`parameters_to_vector`).  The
surrogate loss and KL oracles stand for `surrogate_loss(episodes,
old_pis=old_pis)` evaluated at the written parameters, the Hessian-vector
operator for `hessian_vector_product(episodes, damping)`, and `sqrtF` for
`torch.sqrt`. -/

namespace TRPO

def dot (a b : List ℚ) : ℚ := (List.zipWith (· * ·) a b).sum

/-- Embedding of the step-direction scaling (lines 508-512):
`shs = 0.5 * dot(stepdir, Hv(stepdir))`,
`lagrange_multiplier = sqrt(shs / max_kl)`,
`step = stepdir / lagrange_multiplier`. -/
def trpoStepDir (sqrtF : ℚ → ℚ) (Hv : List ℚ → List ℚ) (stepdir : List ℚ)
    (maxKl : ℚ) : List ℚ :=
  let shs := (1/2) * dot stepdir (Hv stepdir)
  let lagrangeMultiplier := sqrtF (shs / maxKl)
  stepdir.map (· / lagrangeMultiplier)

/-- the parameters written by one line-search attempt:
`vector_to_parameters(old_params - step_size * step, ...)` (line 521). -/
def lsParams (oldP stepV : List ℚ) (s : ℚ) : List ℚ :=
  List.zipWith (fun o d => o - s * d) oldP stepV

/-- Embedding of the backtracking line search (lines 517-530): up to
`ls_max_steps` attempts; an attempt is accepted (`break`) only when
`improve.item() < 0.0` and `kl.item() < max_kl`, both strict; otherwise the
step size is shrunk by `ls_backtrack_ratio`; if the loop exhausts, the
parameters are restored to `old_params` (the for-else branch). -/
def lineSearch (lossF klF : List ℚ → ℚ) (oldLoss maxKl btRatio : ℚ)
    (oldP stepV : List ℚ) : Nat → ℚ → List ℚ
  | 0, _ => oldP
  | n + 1, s =>
    let p := lsParams oldP stepV s
    if lossF p - oldLoss < 0 ∧ klF p < maxKl then p
    else lineSearch lossF klF oldLoss maxKl btRatio oldP stepV n (s * btRatio)

/-- the line search as entered by `step`: `step_size = 1.0`. -/
def trpoLineSearch (lossF klF : List ℚ → ℚ) (oldLoss maxKl btRatio : ℚ)
    (oldP stepV : List ℚ) (lsMaxSteps : Nat) : List ℚ :=
  lineSearch lossF klF oldLoss maxKl btRatio oldP stepV lsMaxSteps 1

end TRPO

/-! ## Theorems -/

theorem zipW3_nil (f : α → β → γ → δ) : zipW3 f [] [] [] = [] := rfl

theorem zipW3_append (f : α → β → γ → δ) (a₁ a₂ : List α) (b₁ b₂ : List β)
    (c₁ c₂ : List γ) (hab : a₁.length = b₁.length) (hcb : c₁.length = b₁.length) :
    zipW3 f (a₁ ++ a₂) (b₁ ++ b₂) (c₁ ++ c₂) = zipW3 f a₁ b₁ c₁ ++ zipW3 f a₂ b₂ c₂ := by
  induction a₁ generalizing b₁ c₁ with
  | nil =>
    cases b₁ with
    | nil => cases c₁ with
      | nil => simp [zipW3]
      | cons c cs => simp at hcb
    | cons b bs => simp at hab
  | cons a as ih =>
    cases b₁ with
    | nil => simp at hab
    | cons b bs =>
      cases c₁ with
      | nil => simp at hcb
      | cons c cs =>
        simp only [List.cons_append, zipW3, List.append_eq]
        rw [ih bs cs (by simpa using hab) (by simpa using hcb)]

theorem sum_flatMap (l : List α) (f : α → List ℚ) :
    (l.flatMap f).sum = (l.map fun a => (f a).sum).sum := by
  induction l with
  | nil => rfl
  | cons a as ih => simp [List.flatMap_cons, ih]

theorem getD_append_lt {α : Type _} (l l' : List α) (i : Nat) (h : i < l.length) (d : α) :
    (l ++ l').getD i d = l.getD i d := by
  simp [List.getD_eq_getElem?_getD, List.getElem?_append_left h]

theorem getD_append_ge {α : Type _} (l l' : List α) (i : Nat) (h : l.length ≤ i) (d : α) :
    (l ++ l').getD i d = l'.getD (i - l.length) d := by
  simp [List.getD_eq_getElem?_getD, List.getElem?_append_right h]

/-- indexing a list of triples elementwise by `List.range` decomposes into the
`zipW3` of the three lists, provided the lengths agree. -/
theorem rangeMap_getD_eq_zipW3 (f : α → β → γ → δ) (da : α) (db : β) (dc : γ) :
    ∀ (a : List α) (b : List β) (c : List γ), a.length = b.length → c.length = b.length →
    (List.range b.length).map (fun j => f (a.getD j da) (b.getD j db) (c.getD j dc)) =
      zipW3 f a b c := by
  intro a
  induction a with
  | nil =>
    intro b c hab hcb
    cases b with
    | nil =>
      cases c with
      | nil => simp [zipW3]
      | cons _ _ => simp at hcb
    | cons _ _ => simp at hab
  | cons x xs ih =>
    intro b c hab hcb
    cases b with
    | nil => simp at hab
    | cons y ys =>
      cases c with
      | nil => simp at hcb
      | cons z zs =>
        simp only [List.length_cons, List.range_succ_eq_map, List.map_cons, List.map_map]
        simp only [List.getD_cons_zero, zipW3]
        congr 1
        rw [← ih ys zs (by simpa using hab) (by simpa using hcb)]
        apply List.map_congr_left
        intro j _
        simp [Function.comp, List.getD_cons_succ]

namespace Auto

theorem freshRefs_map_fst (b : Nat) (wr : WeightsRef) :
    (freshRefs b wr).map Prod.fst = wr.map Prod.fst := by
  induction wr generalizing b with
  | nil => rfl
  | cons p ps ih => simp [freshRefs, ih]

theorem freshRefs_length (b : Nat) (wr : WeightsRef) :
    (freshRefs b wr).length = wr.length := by
  induction wr generalizing b with
  | nil => rfl
  | cons p ps ih => simp [freshRefs, ih]

theorem freshRefs_ids (b : Nat) (wr : WeightsRef) :
    ∀ q ∈ freshRefs b wr, b ≤ q.2 ∧ q.2 < b + wr.length := by
  induction wr generalizing b with
  | nil => simp [freshRefs]
  | cons p ps ih =>
    intro q hq
    simp only [freshRefs, List.mem_cons] at hq
    rcases hq with rfl | hq
    · simp only [List.length_cons]
      omega
    · have := ih (b + 1) q hq
      simp only [List.length_cons]
      omega

theorem freshRefs_getD (b : Nat) (wr : WeightsRef) (j : Nat) (hj : j < wr.length) :
    (freshRefs b wr).getD j ("", 0) = ((wr.getD j ("", 0)).1, b + j) := by
  induction wr generalizing b j with
  | nil => simp at hj
  | cons p ps ih =>
    cases j with
    | zero => simp [freshRefs]
    | succ j =>
      simp only [freshRefs, List.getD_cons_succ]
      rw [ih (b + 1) j (by simpa using hj)]
      congr 1
      omega

theorem autogradGrad_ok (cg : Bool) (loss : Expr) (ρ : String → ℚ) (wr : WeightsRef)
    (h : (wr.all fun p => occursE p.1 loss) = true) :
    autogradGrad cg loss ρ (wr.map Prod.fst) = .ok (gradsOf cg loss ρ wr) := by
  have hall : ((wr.map Prod.fst).all fun n => occursE n loss) = true := by
    simpa [List.all_map, Function.comp] using h
  simp [autogradGrad, hall, gradsOf, List.map_map, Function.comp]

theorem updateParams_eq_ok (σ : Store) (loss : Expr) (wr : WeightsRef) (step : ℚ)
    (fo : Bool) (hocc : (wr.all fun p => occursE p.1 loss) = true) :
    updateParams σ loss wr step fo =
      .ok (σ ++ newValsOf σ loss wr step, freshRefs σ.length wr,
           gradsOf (!fo) loss (envOf σ wr) wr) := by
  have h := autogradGrad_ok (!fo) loss (envOf σ wr) wr hocc
  unfold updateParams
  simp only [h]
  congr 1
  congr 1
  unfold gradsOf newValsOf
  rw [List.zipWith_map_right, List.zipWith_same]
  congr 1
  apply List.map_congr_left
  intro p _
  cases fo <;> simp [evalE]

theorem getD_map_of_lt (f : α → β) (l : List α) (j : Nat) (h : j < l.length)
    (d : β) (d' : α) : (l.map f).getD j d = f (l.getD j d') := by
  rw [List.getD_eq_getElem _ _ (by simpa using h), List.getD_eq_getElem _ _ h,
    List.getElem_map]

theorem updateParams_ok_inv (σ σ' : Store) (loss : Expr) (wr wr' : WeightsRef)
    (step : ℚ) (fo : Bool) (gs : List Expr)
    (h : updateParams σ loss wr step fo = .ok (σ', wr', gs)) :
    wr' = freshRefs σ.length wr ∧ σ'.length = σ.length + wr.length ∧
      σ'.take σ.length = σ := by
  unfold updateParams at h
  cases hm : autogradGrad (!fo) loss (envOf σ wr) (wr.map Prod.fst) with
  | error e =>
    simp only [hm] at h
    exact absurd h (by simp)
  | ok grads =>
    simp only [hm] at h
    simp only [Except.ok.injEq, Prod.mk.injEq] at h
    obtain ⟨hσ, hwr, -⟩ := h
    have hg : grads.length = wr.length := by
      unfold autogradGrad at hm
      by_cases hall : ((wr.map Prod.fst).all fun n => occursE n loss) = true
      · simp only [hall, if_true] at hm
        cases hm
        simp
      · simp only [hall] at hm
        simp at hm
    refine ⟨hwr.symm, ?_, ?_⟩
    · rw [← hσ]
      simp [hg]
    · rw [← hσ]
      exact List.take_left σ _

theorem getDict_ids_lt (net : List NParam) (n : Nat)
    (hids : ∀ p ∈ net, p.tid < n) :
    ∀ q ∈ getInnerLoopParameterDict net, q.2 < n := by
  intro q hq
  simp only [getInnerLoopParameterDict, List.mem_map, List.mem_filter] at hq
  obtain ⟨p, ⟨hp, -⟩, rfl⟩ := hq
  exact hids p hp

theorem take_prefix_trans (σ σ' σ'' : Store) (h1 : σ'.take σ.length = σ)
    (h2 : σ''.take σ'.length = σ') : σ''.take σ.length = σ := by
  have hle : σ.length ≤ σ'.length := by
    have hl := congrArg List.length h1
    simp only [List.length_take] at hl
    omega
  have hstep : σ''.take σ.length = (σ''.take σ'.length).take σ.length := by
    rw [List.take_take, min_eq_left hle]
  rw [hstep, h2, h1]

theorem mem_idsOf (wr : WeightsRef) (a : Nat) :
    a ∈ idsOf wr ↔ ∃ q ∈ wr, q.2 = a := by
  simp [idsOf]

theorem disjoint_of_bounds (xs ys : List Nat) (n : Nat)
    (hx : ∀ a ∈ xs, a < n) (hy : ∀ a ∈ ys, n ≤ a) : xs.Disjoint ys := by
  intro a hxa hya
  have h1 := hx a hxa
  have h2 := hy a hya
  omega

theorem freshRefs_idsOf (b : Nat) (wr : WeightsRef) :
    ∀ a ∈ idsOf (freshRefs b wr), b ≤ a ∧ a < b + wr.length := by
  intro a ha
  obtain ⟨q, hq, rfl⟩ := (mem_idsOf _ a).1 ha
  exact freshRefs_ids b wr q hq

theorem taskStepST_inv (fastLr : ℚ) (fo : Bool) (t : TaskEnvST) (σ σ2 : Store)
    (net net2 : List NParam) (tr : TaskTrace)
    (h : taskStepST fastLr fo t σ net = .ok (σ2, net2, tr)) :
    tr.netBefore = net ∧ tr.w0 = getInnerLoopParameterDict net ∧
    net2 = insertNewParameter tr.w2 ∧
    ∃ σ1 : Store,
      tr.w1 = freshRefs σ.length tr.w0 ∧
      σ1.length = σ.length + tr.w0.length ∧ σ1.take σ.length = σ ∧
      tr.w2 = freshRefs σ1.length tr.w1 ∧
      σ2.length = σ1.length + tr.w1.length ∧ σ2.take σ1.length = σ1 := by
  unfold taskStepST at h
  cases h1 : updateParams σ (t.mkLossE (readW σ (getInnerLoopParameterDict net)))
      (getInnerLoopParameterDict net) fastLr fo with
  | error e =>
    simp only [h1] at h
    exact absurd h (by simp)
  | ok r1 =>
    obtain ⟨σ1, w1, gs1⟩ := r1
    simp only [h1] at h
    cases h2 : updateParams σ1 (t.mkLossE (readW σ1 w1)) w1 fastLr fo with
    | error e =>
      simp only [h2] at h
      exact absurd h (by simp)
    | ok r2 =>
      obtain ⟨σ2', w2, gs2⟩ := r2
      simp only [h2] at h
      simp only [Except.ok.injEq, Prod.mk.injEq] at h
      obtain ⟨rfl, rfl, rfl⟩ := h
      obtain ⟨hw1, hl1, hp1⟩ := updateParams_ok_inv _ _ _ _ _ _ _ _ h1
      obtain ⟨hw2, hl2, hp2⟩ := updateParams_ok_inv _ _ _ _ _ _ _ _ h2
      exact ⟨rfl, rfl, rfl, σ1, hw1, hl1, hp1, hw2, hl2, hp2⟩

end Auto

/-- C6: per task, `sample` freshly derives the inner-loop parameter mapping
from the network parameters current at that task's start (`netBefore`, which
chains through the `insert_new_parameter` re-binding of the previous task's
final weights); the initial, post-inner-step-1 and post-inner-step-2 weight
snapshots hold pairwise disjoint tensor ids (no aliasing among them); and no
store cell existing before the run is ever written — mutations of inner-loop
copies cannot leak into the shared parameters (the outer Adam step of
`meta_update` being the only, separate, mutation site). -/
theorem C6_inner_loop_snapshot_lifecycle (fastLr : ℚ) (fo : Bool)
    (tasks : List Auto.TaskEnvST) (σ0 σf : Auto.Store)
    (net0 netf : List Auto.NParam) (trs : List Auto.TaskTrace)
    (hids : ∀ p ∈ net0, p.tid < σ0.length)
    (hrun : Auto.sampleST fastLr fo tasks σ0 net0 = .ok (σf, netf, trs)) :
    Auto.tracesChained net0 trs ∧
    (∀ tr ∈ trs, tr.w0 = Auto.getInnerLoopParameterDict tr.netBefore) ∧
    (∀ tr ∈ trs,
      (Auto.idsOf tr.w0).Disjoint (Auto.idsOf tr.w1) ∧
      (Auto.idsOf tr.w0).Disjoint (Auto.idsOf tr.w2) ∧
      (Auto.idsOf tr.w1).Disjoint (Auto.idsOf tr.w2)) ∧
    σf.take σ0.length = σ0 := by
  induction tasks generalizing σ0 net0 σf netf trs with
  | nil =>
    simp only [Auto.sampleST, Except.ok.injEq, Prod.mk.injEq] at hrun
    obtain ⟨rfl, rfl, rfl⟩ := hrun
    exact ⟨trivial, by simp, by simp, List.take_length σ0⟩
  | cons t ts ih =>
    simp only [Auto.sampleST] at hrun
    cases h1 : Auto.taskStepST fastLr fo t σ0 net0 with
    | error e =>
      simp only [h1] at hrun
      exact absurd hrun (by simp)
    | ok r =>
      obtain ⟨σ2, net2, tr⟩ := r
      simp only [h1] at hrun
      cases h2 : Auto.sampleST fastLr fo ts σ2 net2 with
      | error e =>
        simp only [h2] at hrun
        exact absurd hrun (by simp)
      | ok r2 =>
        obtain ⟨σf', netf', trs'⟩ := r2
        simp only [h2, Except.ok.injEq, Prod.mk.injEq] at hrun
        obtain ⟨rfl, rfl, rfl⟩ := hrun
        obtain ⟨hnb, hw0, hnet2, σ1, hw1, hl1, hp1, hw2, hl2, hp2⟩ :=
          Auto.taskStepST_inv fastLr fo t σ0 σ2 net0 net2 tr h1
        have hw0lt : ∀ a ∈ Auto.idsOf tr.w0, a < σ0.length := by
          intro a ha
          obtain ⟨q, hq, rfl⟩ := (Auto.mem_idsOf _ a).1 ha
          rw [hw0] at hq
          exact Auto.getDict_ids_lt net0 σ0.length hids q hq
        have hw1rng : ∀ a ∈ Auto.idsOf tr.w1, σ0.length ≤ a ∧ a < σ1.length := by
          intro a ha
          rw [hw1] at ha
          have := Auto.freshRefs_idsOf σ0.length tr.w0 a ha
          omega
        have hw2rng : ∀ a ∈ Auto.idsOf tr.w2, σ1.length ≤ a ∧ a < σ2.length := by
          intro a ha
          rw [hw2] at ha
          have := Auto.freshRefs_idsOf σ1.length tr.w1 a ha
          omega
        have hids2 : ∀ p ∈ net2, p.tid < σ2.length := by
          intro p hp
          rw [hnet2] at hp
          simp only [Auto.insertNewParameter, List.mem_map] at hp
          obtain ⟨q, hq, rfl⟩ := hp
          have : q.2 ∈ Auto.idsOf tr.w2 := (Auto.mem_idsOf _ _).2 ⟨q, hq, rfl⟩
          exact (hw2rng q.2 this).2
        obtain ⟨ihchain, ihfresh, ihdisj, ihpre⟩ := ih σ2 σf' net2 netf' trs' hids2 h2
        have hσ0le1 : σ0.length ≤ σ1.length := by omega
        refine ⟨⟨hnb, ?_⟩, ?_, ?_, ?_⟩
        · rw [← hnet2]
          exact ihchain
        · intro x hx
          rcases List.mem_cons.1 hx with rfl | hx
          · rw [hnb]
            exact hw0
          · exact ihfresh x hx
        · intro x hx
          rcases List.mem_cons.1 hx with rfl | hx
          · refine ⟨?_, ?_, ?_⟩
            · exact Auto.disjoint_of_bounds _ _ σ0.length hw0lt
                (fun a ha => (hw1rng a ha).1)
            · exact Auto.disjoint_of_bounds _ _ σ0.length hw0lt
                (fun a ha => le_trans hσ0le1 (hw2rng a ha).1)
            · exact Auto.disjoint_of_bounds _ _ σ1.length
                (fun a ha => (hw1rng a ha).2) (fun a ha => (hw2rng a ha).1)
          · exact ihdisj x hx
        · have h01 : σ1.take σ0.length = σ0 := hp1
          have h02 : σ2.take σ0.length = σ0 :=
            Auto.take_prefix_trans σ0 σ1 σ2 h01 hp2
          exact Auto.take_prefix_trans σ0 σ2 σf' h02 ihpre

/-- C3: for every input weight mapping, loss graph and step size on which the
gradients exist, `update_params` returns a NEW weight mapping: the key list is
the input key list, every returned weight is a freshly allocated tensor (its
id is outside the pre-existing store, so nothing is mutated in place and the
input mapping still holds its original values, witnessed by the untouched
store prefix), the value at each key is the input value at that key minus
`step_size` times the gradient of the loss with respect to that weight, and
when `first_order` is false the gradients used are the retained differentiable
graphs (the symbolic derivatives), not detached constants. -/
theorem C3_update_params_functional (σ : Auto.Store) (loss : Auto.Expr)
    (wr : Auto.WeightsRef) (step : ℚ) (fo : Bool)
    (hocc : (wr.all fun p => Auto.occursE p.1 loss) = true) :
    ∃ σ' wr' gs, Auto.updateParams σ loss wr step fo = .ok (σ', wr', gs) ∧
      wr'.map Prod.fst = wr.map Prod.fst ∧
      (∀ q ∈ wr', σ.length ≤ q.2) ∧
      σ'.take σ.length = σ ∧
      (∀ j, j < wr.length →
        σ'.getD (wr'.getD j ("", 0)).2 0 =
          σ.getD (wr.getD j ("", 0)).2 0
            - step * Auto.evalE (Auto.envOf σ wr)
                (Auto.derivE (wr.getD j ("", 0)).1 loss)) ∧
      (fo = false → gs = wr.map fun p => Auto.derivE p.1 loss) := by
  refine ⟨_, _, _, Auto.updateParams_eq_ok σ loss wr step fo hocc, ?_, ?_, ?_, ?_, ?_⟩
  · exact Auto.freshRefs_map_fst σ.length wr
  · intro q hq
    exact (Auto.freshRefs_ids σ.length wr q hq).1
  · exact List.take_left σ _
  · intro j hj
    rw [Auto.freshRefs_getD σ.length wr j hj]
    rw [getD_append_ge σ _ (σ.length + j) (Nat.le_add_right _ _) 0,
      Nat.add_sub_cancel_left]
    rw [Auto.newValsOf, Auto.getD_map_of_lt _ wr j hj 0 ("", 0)]
  · intro hfo
    subst hfo
    simp [Auto.gradsOf]

/-- C3 witness: a concrete two-parameter update, with the untouched store
prefix extracted. -/
theorem C3_update_params_functional_witness :
    ∃ σ' wr' gs,
      Auto.updateParams [3, 5]
          (Auto.Expr.add (Auto.Expr.var "a")
            (Auto.Expr.mul (Auto.Expr.var "b") (Auto.Expr.var "b")))
          [("a", 0), ("b", 1)] (1/2) false = .ok (σ', wr', gs) ∧
      σ'.take 2 = [3, 5] ∧ wr'.map Prod.fst = ["a", "b"] := by
  obtain ⟨σ', wr', gs, h1, h2, h3, h4, h5, h6⟩ :=
    C3_update_params_functional [3, 5]
      (Auto.Expr.add (Auto.Expr.var "a")
        (Auto.Expr.mul (Auto.Expr.var "b") (Auto.Expr.var "b")))
      [("a", 0), ("b", 1)] (1/2) false (by decide)
  exact ⟨σ', wr', gs, h1, h4, by simpa using h2⟩

/-- C7 counterexample: the loss `var a` does not depend on the weight `b`;
`update_params` raises (torch.autograd.grad is called with its default
`allow_unused=False`), it does not return the input value for `b`. -/
theorem C7_absent_gradient_counterexample :
    Auto.updateParams [1, 2] (Auto.Expr.var "a") [("a", 0), ("b", 1)] (1/10) false =
      .error "one of the differentiated tensors was not used in the graph" := by
  rfl

/-- C7 amended: if the loss does not depend on some weight of the mapping,
`update_params` propagates the autograd error (`allow_unused` is left at its
default `False` at metalearner.py:117), instead of treating the absent
gradient as zero. -/
theorem C7_absent_gradient_raises (σ : Auto.Store) (loss : Auto.Expr)
    (wr : Auto.WeightsRef) (step : ℚ) (fo : Bool)
    (h : (wr.all fun p => Auto.occursE p.1 loss) = false) :
    Auto.updateParams σ loss wr step fo =
      .error "one of the differentiated tensors was not used in the graph" := by
  have hall : ((wr.map Prod.fst).all fun n => Auto.occursE n loss) = false := by
    simpa [List.all_map, Function.comp] using h
  unfold Auto.updateParams Auto.autogradGrad
  rw [hall]
  rfl

/-- C7 amended witness: the concrete instance of the counterexample, through
the amended theorem. -/
theorem C7_absent_gradient_raises_witness :
    Auto.updateParams [4, 7] (Auto.Expr.var "b") [("a", 0), ("b", 1)] (1/10) true =
      .error "one of the differentiated tensors was not used in the graph" :=
  C7_absent_gradient_raises [4, 7] (Auto.Expr.var "b") [("a", 0), ("b", 1)] (1/10) true
    (by decide)

/-- C6 witness: a concrete one-task run over the store `[2]` with loss `var a`
and inner learning rate 1: the run succeeds, the trace chains from the initial
network, and the three snapshots hold disjoint ids. -/
theorem C6_inner_loop_snapshot_lifecycle_witness :
    Auto.tracesChained [(⟨"a", 0, true⟩ : Auto.NParam)]
        [(⟨[⟨"a", 0, true⟩], [("a", 0)], [("a", 1)], [("a", 2)]⟩ : Auto.TaskTrace)] ∧
    (Auto.idsOf [("a", 0)]).Disjoint (Auto.idsOf [("a", 1)]) ∧
    ([2, 1, 0] : Auto.Store).take 1 = [2] := by
  have hrun : Auto.sampleST 1 false [⟨fun _ => Auto.Expr.var "a"⟩] [2] [⟨"a", 0, true⟩] =
      .ok ([2, 1, 0], [⟨"a", 2, true⟩],
        [⟨[⟨"a", 0, true⟩], [("a", 0)], [("a", 1)], [("a", 2)]⟩]) := by
    norm_num [Auto.sampleST, Auto.taskStepST, Auto.updateParams, Auto.autogradGrad,
      Auto.getInnerLoopParameterDict, Auto.readW, Auto.envOf, Auto.evalE, Auto.derivE,
      Auto.occursE, Auto.freshRefs, Auto.insertNewParameter, List.lookup, List.getD]
  have h := C6_inner_loop_snapshot_lifecycle 1 false [⟨fun _ => Auto.Expr.var "a"⟩]
    [2] [2, 1, 0] [⟨"a", 0, true⟩] [⟨"a", 2, true⟩]
    [⟨[⟨"a", 0, true⟩], [("a", 0)], [("a", 1)], [("a", 2)]⟩]
    (by norm_num) hrun
  exact ⟨h.1,
    (h.2.2.1 ⟨[⟨"a", 0, true⟩], [("a", 0)], [("a", 1)], [("a", 2)]⟩ (by simp)).1,
    h.2.2.2⟩

namespace RL

theorem isFirstOcc_false_iff (env : NetEnv) (w : W) (idx k : Nat) :
    isFirstOcc env w idx k = false ↔
      ∃ j < k, actsAt env w idx j = actsAt env w idx k := by
  unfold isFirstOcc
  rw [List.all_eq_false]
  constructor
  · rintro ⟨j, hj, hbeq⟩
    refine ⟨j, List.mem_range.1 hj, ?_⟩
    simpa using hbeq
  · rintro ⟨j, hj, heq⟩
    refine ⟨j, List.mem_range.2 hj, ?_⟩
    simpa using heq

theorem mem_memSpec (env : NetEnv) (w : W) (idx k : Nat) (x : List Nat) :
    x ∈ memSpec env w idx k ↔ ∃ j < k, actsAt env w idx j = x := by
  induction k with
  | zero => simp [memSpec, keptUpTo]
  | succ k ih =>
    have hsplit : memSpec env w idx (k + 1) =
        memSpec env w idx k ++
          if isFirstOcc env w idx k then [actsAt env w idx k] else [] := by
      unfold memSpec keptUpTo
      rw [List.range_succ, List.filter_append]
      cases hk : isFirstOcc env w idx k <;> simp [hk]
    rw [hsplit]
    cases hk : isFirstOcc env w idx k with
    | true =>
      simp only [if_true, List.mem_append, List.mem_singleton, ih]
      constructor
      · rintro (⟨j, hj, hx⟩ | rfl)
        · exact ⟨j, by omega, hx⟩
        · exact ⟨k, by omega, rfl⟩
      · rintro ⟨j, hj, hx⟩
        rcases Nat.lt_succ_iff_lt_or_eq.1 hj with hj | rfl
        · exact Or.inl ⟨j, hj, hx⟩
        · exact Or.inr hx.symm
    | false =>
      rw [if_neg (by exact Bool.false_ne_true)]
      simp only [List.append_nil, ih]
      constructor
      · rintro ⟨j, hj, hx⟩
        exact ⟨j, by omega, hx⟩
      · rintro ⟨j, hj, hx⟩
        rcases Nat.lt_succ_iff_lt_or_eq.1 hj with hj | hj
        · exact ⟨j, hj, hx⟩
        · obtain ⟨j', hj', heq⟩ := (isFirstOcc_false_iff env w idx k).1 hk
          exact ⟨j', hj', heq.trans (hj ▸ hx)⟩

theorem memSpec_contains (env : NetEnv) (w : W) (idx k : Nat) :
    ((memSpec env w idx k).any fun m => duplicate m (actsAt env w idx k)) =
      !(isFirstOcc env w idx k) := by
  cases hk : isFirstOcc env w idx k with
  | true =>
    simp only [Bool.not_true]
    rw [List.any_eq_false]
    intro m hm
    obtain ⟨j, hj, rfl⟩ := List.mem_map.1 hm
    simp only [keptUpTo, List.mem_filter, List.mem_range] at hj
    simp only [duplicate, Bool.not_eq_true, beq_eq_false_iff_ne, ne_eq]
    intro heq
    have : isFirstOcc env w idx k = false :=
      (isFirstOcc_false_iff env w idx k).2 ⟨j, hj.1, heq⟩
    rw [this] at hk
    exact Bool.false_ne_true hk
  | false =>
    simp only [Bool.not_false]
    rw [List.any_eq_true]
    obtain ⟨j, hj, heq⟩ := (isFirstOcc_false_iff env w idx k).1 hk
    have hmem : actsAt env w idx k ∈ memSpec env w idx k :=
      (mem_memSpec env w idx k _).2 ⟨j, hj, heq⟩
    exact ⟨_, hmem, by simp [duplicate]⟩

theorem actsAt_eq (env : NetEnv) (w : W) (idx k : Nat) :
    actsAt env w idx k = (env.decodeChainSampling w idx k).2 := rfl

theorem logitsAt_eq (env : NetEnv) (w : W) (idx k : Nat) :
    logitsAt env w idx k = (env.decodeChainSampling w idx k).1 := rfl

theorem advOf_eq (env : NetEnv) (idx k : Nat) :
    advOf env idx k = env.sampleReward idx k - env.argmaxReward idx := rfl

theorem keptUpTo_succ (env : NetEnv) (w : W) (idx k : Nat) :
    keptUpTo env w idx (k + 1) =
      keptUpTo env w idx k ++ (if isFirstOcc env w idx k then [k] else []) := by
  unfold keptUpTo
  rw [List.range_succ, List.filter_append]
  cases hk : isFirstOcc env w idx k <;> simp [hk]

theorem polSpec_succ (env : NetEnv) (w : W) (idx k : Nat) :
    polSpec env w idx (k + 1) =
      polSpec env w idx k ++
        (if isFirstOcc env w idx k then [logitsAt env w idx k] else []) := by
  unfold polSpec
  rw [keptUpTo_succ, List.map_append]
  cases hk : isFirstOcc env w idx k <;> simp

theorem memSpec_succ (env : NetEnv) (w : W) (idx k : Nat) :
    memSpec env w idx (k + 1) =
      memSpec env w idx k ++
        (if isFirstOcc env w idx k then [actsAt env w idx k] else []) := by
  unfold memSpec
  rw [keptUpTo_succ, List.map_append]
  cases hk : isFirstOcc env w idx k <;> simp

theorem actSpec_succ (env : NetEnv) (w : W) (idx k : Nat) :
    actSpec env w idx (k + 1) =
      actSpec env w idx k ++
        (if isFirstOcc env w idx k then actsAt env w idx k else []) := by
  unfold actSpec
  rw [keptUpTo_succ, List.flatMap_append]
  cases hk : isFirstOcc env w idx k <;> simp

theorem advSpec_succ (env : NetEnv) (w : W) (idx k : Nat) :
    advSpec env w idx (k + 1) =
      advSpec env w idx k ++
        (if isFirstOcc env w idx k then
          List.replicate (actsAt env w idx k).length (advOf env idx k) else []) := by
  unfold advSpec
  rw [keptUpTo_succ, List.flatMap_append]
  cases hk : isFirstOcc env w idx k <;> simp

theorem dupCount_succ (env : NetEnv) (w : W) (idx k : Nat) :
    dupCount env w idx (k + 1) =
      dupCount env w idx k + (if isFirstOcc env w idx k then 0 else 1) := by
  unfold dupCount
  rw [List.range_succ, List.filter_append, List.length_append]
  cases hk : isFirstOcc env w idx k <;> simp [hk]

/-- the `for _ in range(self.samples)` loop computes exactly the spec-side
pieces: the memory is the kept (first-occurrence) action sequences and the
accumulators receive exactly the kept draws' logits, actions and broadcast
advantages, with one skip per duplicate. -/
theorem drawsFold_spec (env : NetEnv) (w : W) (idx : Nat) :
    ∀ (k : Nat) (acc : GAcc),
    (List.range k).foldl (drawStep env w idx (env.argmaxReward idx)) ([], acc) =
      (memSpec env w idx k,
       ⟨acc.netPolicies ++ polSpec env w idx k,
        acc.netActions ++ actSpec env w idx k,
        acc.netAdvantages ++ advSpec env w idx k,
        acc.totalSamples + k,
        acc.skippedSamples + dupCount env w idx k⟩) := by
  intro k acc
  induction k with
  | zero =>
    simp [memSpec, keptUpTo, polSpec, actSpec, advSpec, dupCount]
  | succ k ih =>
    rw [List.range_succ, List.foldl_append, ih]
    simp only [List.foldl_cons, List.foldl_nil]
    unfold drawStep
    simp only
    rw [← actsAt_eq env w idx k, ← logitsAt_eq env w idx k, ← advOf_eq env idx k,
      memSpec_contains]
    cases hk : isFirstOcc env w idx k with
    | true =>
      rw [if_neg (by simp)]
      refine congrArg₂ Prod.mk ?_ ?_
      · rw [memSpec_succ, hk]
        simp
      · rw [polSpec_succ, actSpec_succ, advSpec_succ, dupCount_succ, hk]
        simp only [if_pos trivial, GAcc.mk.injEq]
        refine ⟨?_, ?_, ?_, by omega, by omega⟩
        · rw [List.append_assoc]
        · rw [List.append_assoc]
        · rw [List.append_assoc]
    | false =>
      rw [if_pos (by simp)]
      refine congrArg₂ Prod.mk ?_ ?_
      · rw [memSpec_succ, hk]
        simp
      · rw [polSpec_succ, actSpec_succ, advSpec_succ, dupCount_succ, hk]
        simp only [if_neg (Bool.false_ne_true), GAcc.mk.injEq, List.append_nil]
        refine ⟨trivial, trivial, trivial, by omega, by omega⟩

theorem exampleStep_spec (env : NetEnv) (w : W) (samples : Nat) (acc : GAcc)
    (idx : Nat) :
    exampleStep env w samples acc idx =
      ⟨acc.netPolicies ++ polSpec env w idx samples,
       acc.netActions ++ actSpec env w idx samples,
       acc.netAdvantages ++ advSpec env w idx samples,
       acc.totalSamples + samples,
       acc.skippedSamples + dupCount env w idx samples⟩ := by
  simp only [exampleStep]
  rw [drawsFold_spec]

/-- the example loop of `inner_loss` accumulates the per-example spec pieces
in order. -/
theorem innerLossAcc_spec (env : NetEnv) (samples : Nat) (w : W) :
    innerLossAcc env samples w =
      ⟨specPolicies env w samples, specActions env w samples,
       specAdvantages env w samples, env.numExamples * samples,
       specSkipped env w samples⟩ := by
  suffices h : ∀ (m : Nat) (acc : GAcc),
      (List.range m).foldl (exampleStep env w samples) acc =
        ⟨acc.netPolicies ++ (List.range m).flatMap fun idx => polSpec env w idx samples,
         acc.netActions ++ (List.range m).flatMap fun idx => actSpec env w idx samples,
         acc.netAdvantages ++ (List.range m).flatMap fun idx => advSpec env w idx samples,
         acc.totalSamples + m * samples,
         acc.skippedSamples +
           ((List.range m).map fun idx => dupCount env w idx samples).sum⟩ by
    unfold innerLossAcc specPolicies specActions specAdvantages specSkipped
    rw [h]
    simp
  intro m acc
  induction m with
  | zero => simp
  | succ m ih =>
    rw [List.range_succ, List.foldl_append, ih]
    simp only [List.foldl_cons, List.foldl_nil]
    rw [exampleStep_spec]
    simp only [GAcc.mk.injEq, List.range_succ, List.flatMap_append, List.map_append,
      List.flatMap_cons, List.flatMap_nil, List.append_nil, List.map_cons,
      List.map_nil, List.sum_append, List.sum_cons, List.sum_nil]
    refine ⟨?_, ?_, ?_, ?_, ?_⟩
    · rw [List.append_assoc]
    · rw [List.append_assoc]
    · rw [List.append_assoc]
    · rw [Nat.succ_mul]
      omega
    · omega

end RL

theorem length_flatMap' (l : List α) (f : α → List β) :
    (l.flatMap f).length = (l.map fun a => (f a).length).sum := by
  induction l with
  | nil => rfl
  | cons a as ih => simp [List.flatMap_cons, ih]

theorem getD_replicate_lt (n t : Nat) (v d : α) (h : t < n) :
    (List.replicate n v).getD t d = v := by
  rw [List.getD_eq_getElem _ _ (by simpa using h)]
  simp

theorem flatMap_congr (l : List α) (f g : α → List β)
    (h : ∀ x ∈ l, f x = g x) : l.flatMap f = l.flatMap g := by
  induction l with
  | nil => rfl
  | cons a as ih =>
    simp only [List.flatMap_cons]
    rw [h a (by simp), ih fun x hx => h x (by simp [hx])]

theorem flatMap_zipW3 (f : α → β → γ → δ)
    (blocks : List (List α × List β × List γ))
    (hab : ∀ b ∈ blocks, b.1.length = b.2.1.length)
    (hcb : ∀ b ∈ blocks, b.2.2.length = b.2.1.length) :
    zipW3 f (blocks.flatMap fun b => b.1) (blocks.flatMap fun b => b.2.1)
        (blocks.flatMap fun b => b.2.2) =
      blocks.flatMap fun b => zipW3 f b.1 b.2.1 b.2.2 := by
  induction blocks with
  | nil => rfl
  | cons b bs ih =>
    simp only [List.flatMap_cons]
    rw [zipW3_append f _ _ _ _ _ _ (hab b (by simp)) (hcb b (by simp)),
      ih (fun x hx => hab x (by simp [hx])) (fun x hx => hcb x (by simp [hx]))]

namespace RL

theorem specPolicies_flatten (env : NetEnv) (w : W) (samples : Nat) :
    (specPolicies env w samples).flatten =
      (specBlocks env w samples).flatMap fun b => b.1 := by
  unfold specPolicies specBlocks
  rw [List.flatten_eq_flatMap, List.flatMap_assoc, List.flatMap_assoc]
  apply flatMap_congr
  intro idx _
  unfold polSpec keptDraws
  rw [List.flatMap_map, List.flatMap_map]
  rfl

theorem specActions_blocks (env : NetEnv) (w : W) (samples : Nat) :
    specActions env w samples =
      (specBlocks env w samples).flatMap fun b => b.2.1 := by
  unfold specActions specBlocks
  rw [List.flatMap_assoc]
  apply flatMap_congr
  intro idx _
  unfold actSpec keptDraws
  rw [List.flatMap_map]

theorem specAdvantages_blocks (env : NetEnv) (w : W) (samples : Nat) :
    specAdvantages env w samples =
      (specBlocks env w samples).flatMap fun b => b.2.2 := by
  unfold specAdvantages specBlocks
  rw [List.flatMap_assoc]
  apply flatMap_congr
  intro idx _
  unfold advSpec keptDraws
  rw [List.flatMap_map]

theorem specBlocks_lengths (env : NetEnv) (w : W) (samples : Nat)
    (hwf : ∀ idx k, (logitsAt env w idx k).length = (actsAt env w idx k).length) :
    (∀ b ∈ specBlocks env w samples, b.1.length = b.2.1.length) ∧
    (∀ b ∈ specBlocks env w samples, b.2.2.length = b.2.1.length) := by
  constructor <;>
  · intro b hb
    unfold specBlocks at hb
    simp only [List.mem_flatMap, List.mem_map] at hb
    obtain ⟨idx, -, k, -, rfl⟩ := hb
    simp [hwf]

theorem specActions_ne_nil_policies (env : NetEnv) (w : W) (samples : Nat)
    (hne : specActions env w samples ≠ []) :
    specPolicies env w samples ≠ [] := by
  intro hpol
  apply hne
  unfold specActions
  rw [List.flatMap_eq_nil_iff]
  intro idx hidx
  unfold specPolicies at hpol
  rw [List.flatMap_eq_nil_iff] at hpol
  have hkept : polSpec env w idx samples = [] := hpol idx hidx
  unfold polSpec at hkept
  rw [List.map_eq_nil_iff] at hkept
  unfold actSpec
  rw [hkept]
  rfl

end RL

/-- C4: in `inner_loss`, a stochastic decode whose token sequence duplicates a
previously kept sample of the same example is excluded: the accumulators hold
exactly the first-occurrence draws' logit groups, actions and advantages (so
no duplicate is ever counted in the advantage-weighted loss), `total_samples`
counts every draw, and `skipped_samples` increases by exactly the number of
duplicate draws; moreover a draw fails the first-occurrence test exactly when
some earlier KEPT draw of the same example has the identical token
sequence. -/
theorem C4_duplicate_samples_excluded (env : RL.NetEnv) (w : RL.W) (samples : Nat) :
    RL.innerLossAcc env samples w =
      ⟨RL.specPolicies env w samples, RL.specActions env w samples,
       RL.specAdvantages env w samples, env.numExamples * samples,
       RL.specSkipped env w samples⟩ ∧
    (∀ idx k, k < samples →
      (RL.isFirstOcc env w idx k = false ↔
        ∃ j ∈ RL.keptDraws env w samples idx, j < k ∧
          RL.actsAt env w idx j = RL.actsAt env w idx k)) := by
  refine ⟨RL.innerLossAcc_spec env samples w, ?_⟩
  intro idx k hk
  constructor
  · intro hfalse
    obtain ⟨j, hj, heq⟩ := (RL.isFirstOcc_false_iff env w idx k).1 hfalse
    have hmem : RL.actsAt env w idx k ∈ RL.memSpec env w idx k :=
      (RL.mem_memSpec env w idx k _).2 ⟨j, hj, heq⟩
    obtain ⟨j', hj', heq'⟩ := List.mem_map.1 hmem
    simp only [RL.keptUpTo, List.mem_filter, List.mem_range] at hj'
    refine ⟨j', ?_, hj'.1, heq'⟩
    unfold RL.keptDraws RL.keptUpTo
    rw [List.mem_filter, List.mem_range]
    exact ⟨by omega, hj'.2⟩
  · rintro ⟨j, hjmem, hjk, heq⟩
    exact (RL.isFirstOcc_false_iff env w idx k).2 ⟨j, hjk, heq⟩

/-- C4 witness: one example, three draws with the second duplicating the
first: the accumulator equality instantiates, and draw 1 is a duplicate of
the kept draw 0. -/
theorem C4_duplicate_samples_excluded_witness :
    (RL.isFirstOcc
        ⟨1, fun _ _ => ([], []), fun _ _ k => ([[1, 0]], [if k ≤ 1 then 5 else 7]),
         fun _ => 0, fun _ _ => 1, fun _ _ => 0⟩ [] 0 1 = false) ∧
    (∃ j ∈ RL.keptDraws
        ⟨1, fun _ _ => ([], []), fun _ _ k => ([[1, 0]], [if k ≤ 1 then 5 else 7]),
         fun _ => 0, fun _ _ => 1, fun _ _ => 0⟩ [] 3 0, j < 1 ∧
      RL.actsAt
        ⟨1, fun _ _ => ([], []), fun _ _ k => ([[1, 0]], [if k ≤ 1 then 5 else 7]),
         fun _ => 0, fun _ _ => 1, fun _ _ => 0⟩ [] 0 j =
      RL.actsAt
        ⟨1, fun _ _ => ([], []), fun _ _ k => ([[1, 0]], [if k ≤ 1 then 5 else 7]),
         fun _ => 0, fun _ _ => 1, fun _ _ => 0⟩ [] 0 1) := by
  have h := (C4_duplicate_samples_excluded
    ⟨1, fun _ _ => ([], []), fun _ _ k => ([[1, 0]], [if k ≤ 1 then 5 else 7]),
     fun _ => 0, fun _ _ => 1, fun _ _ => 0⟩ [] 3).2 0 1 (by omega)
  have hfo : RL.isFirstOcc
      ⟨1, fun _ _ => ([], []), fun _ _ k => ([[1, 0]], [if k ≤ 1 then 5 else 7]),
       fun _ => 0, fun _ _ => 1, fun _ _ => 0⟩ [] 0 1 = false := by
    decide
  exact ⟨hfo, h.1 hfo⟩

/-- C8: for every kept stochastic sample, every one of its tokens carries the
same advantage `reward(stochastic) - reward(baseline)`, and the task loss is
the negated mean, over all collected tokens, of that advantage times the
log-softmax of the token's output logits at the sampled action index. -/
theorem C8_advantage_broadcast_and_loss (env : RL.NetEnv) (w : RL.W) (samples : Nat)
    (hwf : ∀ idx k, (RL.logitsAt env w idx k).length = (RL.actsAt env w idx k).length)
    (hne : RL.specActions env w samples ≠ []) :
    RL.innerLoss env samples w =
      (.tensor (-((RL.specTerms env w samples).sum /
          ((RL.specActions env w samples).length : ℚ))),
       env.numExamples * samples, RL.specSkipped env w samples) := by
  obtain ⟨hab, hcb⟩ := RL.specBlocks_lengths env w samples hwf
  have hpol := RL.specActions_ne_nil_policies env w samples hne
  have hA : ((RL.specBlocks env w samples).flatMap fun b => b.1).length =
      ((RL.specBlocks env w samples).flatMap fun b => b.2.1).length := by
    rw [length_flatMap', length_flatMap']
    exact congrArg List.sum (List.map_congr_left fun b hb => hab b hb)
  have hC : ((RL.specBlocks env w samples).flatMap fun b => b.2.2).length =
      ((RL.specBlocks env w samples).flatMap fun b => b.2.1).length := by
    rw [length_flatMap', length_flatMap']
    exact congrArg List.sum (List.map_congr_left fun b hb => hcb b hb)
  have hterms :
      (List.range (RL.specActions env w samples).length).map (fun j =>
        (RL.specAdvantages env w samples).getD j 0 *
          env.logSoftmaxAt ((RL.specPolicies env w samples).flatten.getD j [])
            ((RL.specActions env w samples).getD j 0)) =
      RL.specTerms env w samples := by
    rw [RL.specActions_blocks, RL.specAdvantages_blocks, RL.specPolicies_flatten]
    have h1 := rangeMap_getD_eq_zipW3
      (fun (a : List ℚ) (b : Nat) (c : ℚ) => c * env.logSoftmaxAt a b) [] 0 0
      ((RL.specBlocks env w samples).flatMap fun b => b.1)
      ((RL.specBlocks env w samples).flatMap fun b => b.2.1)
      ((RL.specBlocks env w samples).flatMap fun b => b.2.2) hA hC
    refine h1.trans ?_
    rw [flatMap_zipW3 _ _ hab hcb]
    unfold RL.specTerms RL.specBlocks
    rw [List.flatMap_assoc]
    apply flatMap_congr
    intro idx _
    rw [List.flatMap_map]
    apply flatMap_congr
    intro k _
    rw [← rangeMap_getD_eq_zipW3
      (fun (a : List ℚ) (b : Nat) (c : ℚ) => c * env.logSoftmaxAt a b) [] 0 0
      (RL.logitsAt env w idx k) (RL.actsAt env w idx k)
      (List.replicate (RL.actsAt env w idx k).length (RL.advOf env idx k))
      (hwf idx k) (by simp)]
    apply List.map_congr_left
    intro t ht
    rw [getD_replicate_lt _ _ _ _ (List.mem_range.1 ht)]
  simp only [RL.innerLoss]
  rw [RL.innerLossAcc_spec]
  simp only
  rw [if_neg hpol, hterms]

/-- C8 witness: one example, two kept draws of one token each, rewards 0 and
1 against baseline 1/2: advantages are -(1/2) and 1/2, and the loss, the
negated mean of advantage times log-softmax, evaluates to 0. -/
theorem C8_advantage_broadcast_and_loss_witness :
    RL.innerLoss envC8 2 [] = (RL.LossVal.tensor 0, 2, 0) := by
  have hwf : ∀ idx k,
      (RL.logitsAt envC8 [] idx k).length = (RL.actsAt envC8 [] idx k).length := by
    intro idx k
    by_cases hk : k = 0 <;> simp [RL.logitsAt, RL.actsAt, envC8, hk]
  have hne : RL.specActions envC8 [] 2 ≠ [] := by decide
  have h := C8_advantage_broadcast_and_loss envC8 [] 2 hwf hne
  rw [h]
  norm_num [RL.specTerms, RL.specSkipped, RL.specActions, RL.actSpec, RL.keptDraws,
    RL.keptUpTo, RL.isFirstOcc, RL.dupCount, RL.actsAt, RL.logitsAt, RL.advOf,
    envC8, List.range_succ]

namespace RL

theorem isTensor_iff (l : LossVal) : isTensor l = true ↔ ∃ q, l = .tensor q := by
  cases l <;> simp [isTensor]

end RL

namespace MAML

theorem zip_add_zero_map (a b : List ℚ) (h : a.length = b.length) :
    List.zipWith (· + ·) (a.map fun _ => (0 : ℚ)) b = b := by
  induction a generalizing b with
  | nil => cases b with
    | nil => rfl
    | cons x xs => simp at h
  | cons x xs ih =>
    cases b with
    | nil => simp at h
    | cons y ys =>
      simp only [List.map_cons, List.zipWith_cons_cons, zero_add, List.cons.injEq]
      exact ⟨trivial, ih ys (by simpa using h)⟩

theorem specMetas_length (samples : Nat) (fastLr : ℚ) (tasks : List TaskEnv)
    (net : List NParamV) :
    (specMetas samples fastLr tasks net).length = tasks.length := by
  induction tasks generalizing net with
  | nil => rfl
  | cons env ts ih => simp [specMetas, ih]

theorem specMetas_tensor (samples : Nat) (fastLr : ℚ) (tasks : List TaskEnv)
    (net : List NParamV) (hok : lossesOk samples fastLr tasks net = true) :
    ∀ l ∈ specMetas samples fastLr tasks net, RL.isTensor l = true := by
  induction tasks generalizing net with
  | nil => simp [specMetas]
  | cons env ts ih =>
    simp only [lossesOk, Bool.and_eq_true] at hok
    obtain ⟨⟨⟨-, -⟩, h2⟩, hrest⟩ := hok
    intro l hl
    rcases List.mem_cons.1 hl with rfl | hl
    · exact h2
    · exact ih _ hrest l hl

theorem tensorVals_ok (ls : List RL.LossVal)
    (h : ∀ l ∈ ls, RL.isTensor l = true) :
    tensorVals ls = .ok (ls.map RL.tensorVal) := by
  induction ls with
  | nil => rfl
  | cons l ls ih =>
    cases l with
    | tensor q =>
      simp only [tensorVals, List.map_cons]
      rw [ih fun x hx => h x (by simp [hx])]
      rfl
    | flt q =>
      have := h (.flt q) (by simp)
      simp [RL.isTensor] at this

/-- the task loop evaluates, task by task, the exact inner-update sequence
and accumulates only the first two evaluations' counts. -/
theorem sampleLoop_spec (samples : Nat) (fastLr : ℚ) (tasks : List TaskEnv) :
    ∀ (net : List NParamV) (losses : List RL.LossVal) (tot skip : Nat),
    lossesOk samples fastLr tasks net = true →
    sampleLoop samples fastLr tasks net losses tot skip =
      .ok (losses ++ specMetas samples fastLr tasks net,
           tot + specTotals samples fastLr tasks net,
           skip + specSkips samples fastLr tasks net) := by
  induction tasks with
  | nil =>
    intro net losses tot skip _
    simp [sampleLoop, specMetas, specTotals, specSkips]
  | cons env ts ih =>
    intro net losses tot skip hok
    simp only [lossesOk, Bool.and_eq_true] at hok
    obtain ⟨⟨⟨h0, h1⟩, h2⟩, hrest⟩ := hok
    obtain ⟨q0, hq0⟩ := (RL.isTensor_iff _).1 h0
    obtain ⟨q1, hq1⟩ := (RL.isTensor_iff _).1 h1
    simp only [taskW0, taskW1, taskW2] at hq0 hq1 hrest
    simp only [sampleLoop, sampleTask]
    rw [hq0]
    simp only [updateParamsO]
    rw [hq1]
    simp only [updateParamsO]
    rw [ih _ _ _ _ hrest]
    simp only [specMetas, specTotals, specSkips, taskW0, taskW1, taskW2,
      List.append_assoc, List.singleton_append, Except.ok.injEq, Prod.mk.injEq]
    exact ⟨trivial, by omega, by omega⟩

/-- `sample` under tensor-valued losses: the returned meta loss is the mean of
the per-task meta losses of the spec-side recursion, and the counts are the
spec-side sums. -/
theorem sample_spec (tasks : List TaskEnv) (samples : Nat) (fastLr : ℚ)
    (net : List NParamV) (hne : tasks ≠ [])
    (hok : lossesOk samples fastLr tasks net = true) :
    sample tasks samples fastLr net =
      .ok (((specMetas samples fastLr tasks net).map RL.tensorVal).sum /
            (tasks.length : ℚ),
           specTotals samples fastLr tasks net,
           specSkips samples fastLr tasks net) := by
  unfold sample
  rw [sampleLoop_spec samples fastLr tasks net [] 0 0 hok]
  simp only [List.nil_append, Nat.zero_add]
  have hmne : specMetas samples fastLr tasks net ≠ [] := by
    intro hnil
    apply hne
    have hlen := specMetas_length samples fastLr tasks net
    rw [hnil] at hlen
    exact List.length_eq_zero.1 hlen.symm
  unfold torchStack
  rw [if_neg (by simpa [List.isEmpty_iff] using hmne)]
  rw [tensorVals_ok _ (specMetas_tensor samples fastLr tasks net hok)]
  unfold torchMean
  simp [specMetas_length]

end MAML

/-- C1: under a batch of tasks whose inner-loss evaluations all keep at least
one sample, `sample` performs per task exactly: inner loss under the current
shared weights (`taskW0`), one inner update (`taskW1`), inner loss again, a
second inner update (`taskW2`), and the meta loss under the twice-updated
weights — this is what `specMetas` spells out — and the returned meta-loss is
the arithmetic mean of all tasks' meta losses; `meta_update` performs exactly
one Adam optimizer step on the passed (mean) loss: the cleared gradient
buffers receive exactly the loss gradient and a single `adamStep` is
applied. -/
theorem C1_sample_sequence_mean_adam (tasks : List MAML.TaskEnv) (samples : Nat)
    (fastLr : ℚ) (net : List MAML.NParamV) (hne : tasks ≠ [])
    (hok : MAML.lossesOk samples fastLr tasks net = true) :
    (∃ counts : Nat × Nat,
      MAML.sample tasks samples fastLr net =
        .ok (((MAML.specMetas samples fastLr tasks net).map RL.tensorVal).sum /
              (tasks.length : ℚ), counts)) ∧
    (∀ (lr eps : ℚ) (sqrtF : ℚ → ℚ) (dLoss : List ℚ) (st : MAML.OptSt),
      st.gs.length = dLoss.length →
      MAML.metaUpdate lr eps sqrtF dLoss st =
        MAML.adamStep lr eps sqrtF { st with gs := dLoss }) := by
  refine ⟨⟨_, MAML.sample_spec tasks samples fastLr net hne hok⟩, ?_⟩
  intro lr eps sqrtF dLoss st hlen
  unfold MAML.metaUpdate MAML.backwardAdd MAML.zeroGradOpt
  rw [MAML.zip_add_zero_map _ _ (by simpa using hlen)]

/-- C1 witness: a single task; the returned meta loss is the task's meta loss
1, mean of one value. -/
theorem C1_sample_sequence_mean_adam_witness :
    ∃ counts : Nat × Nat,
      MAML.sample [⟨envC1n, fun _ _ => 1⟩] 1 1 [⟨"a", 2, true⟩] =
        .ok (1, counts) := by
  obtain ⟨c, hc⟩ := (C1_sample_sequence_mean_adam [⟨envC1n, fun _ _ => 1⟩] 1 1
    [⟨"a", 2, true⟩] (by simp) (by decide)).1
  refine ⟨c, ?_⟩
  rw [hc]
  norm_num [MAML.specMetas, MAML.taskW2, MAML.taskW1, MAML.taskW0, MAML.stepW,
    MAML.getInnerLoopParameterDict, MAML.insertNewParameter, RL.innerLoss,
    RL.innerLossAcc, RL.exampleStep, RL.drawStep, RL.duplicate, RL.tensorVal,
    envC1n, List.range_succ]

/-- C10: the counts returned by `sample` are exactly the sums, over tasks, of
the `total_samples` and `skipped_samples` of the two pre-update `inner_loss`
evaluations (`taskW0` and `taskW1`); the third, meta-loss evaluation's counts
are discarded. -/
theorem C10_sample_counts_exclude_meta_eval (tasks : List MAML.TaskEnv)
    (samples : Nat) (fastLr : ℚ) (net : List MAML.NParamV) (hne : tasks ≠ [])
    (hok : MAML.lossesOk samples fastLr tasks net = true) :
    ∃ m : ℚ, MAML.sample tasks samples fastLr net =
      .ok (m, MAML.specTotals samples fastLr tasks net,
           MAML.specSkips samples fastLr tasks net) :=
  ⟨_, MAML.sample_spec tasks samples fastLr net hne hok⟩

/-- C10 witness: weights 2 → 1 → 0; the first two evaluations keep both of
their two draws (counts (2,0) each), the meta evaluation at weight 0 skips
one duplicate draw, and the returned counts are (4, 0). -/
theorem C10_sample_counts_exclude_meta_eval_witness :
    ∃ m : ℚ, MAML.sample [⟨envC10n, fun _ _ => 1⟩] 2 1 [⟨"a", 2, true⟩] =
      .ok (m, 4, 0) := by
  have hok : MAML.lossesOk 2 1 [⟨envC10n, fun _ _ => 1⟩] [⟨"a", 2, true⟩] = true := by
    norm_num [MAML.lossesOk, MAML.taskW2, MAML.taskW1, MAML.taskW0, MAML.stepW,
      MAML.getInnerLoopParameterDict, MAML.insertNewParameter, RL.innerLoss,
      RL.innerLossAcc, RL.exampleStep, RL.drawStep, RL.duplicate, RL.isTensor,
      envC10n, List.range_succ]
    simp
  obtain ⟨m, hm⟩ := C10_sample_counts_exclude_meta_eval [⟨envC10n, fun _ _ => 1⟩]
    2 1 [⟨"a", 2, true⟩] (by simp) hok
  refine ⟨m, ?_⟩
  have h4 : MAML.specTotals 2 1 [⟨envC10n, fun _ _ => 1⟩] [⟨"a", 2, true⟩] = 4 := by
    norm_num [MAML.specTotals, MAML.taskW2, MAML.taskW1, MAML.taskW0, MAML.stepW,
      MAML.getInnerLoopParameterDict, MAML.insertNewParameter, RL.innerLoss,
      RL.innerLossAcc, RL.exampleStep, RL.drawStep, RL.duplicate,
      envC10n, List.range_succ]
    simp
  have h0 : MAML.specSkips 2 1 [⟨envC10n, fun _ _ => 1⟩] [⟨"a", 2, true⟩] = 0 := by
    norm_num [MAML.specSkips, MAML.taskW2, MAML.taskW1, MAML.taskW0, MAML.stepW,
      MAML.getInnerLoopParameterDict, MAML.insertNewParameter, RL.innerLoss,
      RL.innerLossAcc, RL.exampleStep, RL.drawStep, RL.duplicate,
      envC10n, List.range_succ]
    simp
  rw [← h4, ← h0]
  exact hm

/-- C5 (code bug evidence): with no usable stochastic samples, `inner_loss`
does return exactly zero without raising — but as the Python float `0.0`
(the format-mismatch flagged by the TODO at metalearner.py:288), not a
tensor; the surrounding `sample` then fails in `torch.autograd.grad` /
`torch.stack` instead of contributing a zero gradient. -/
theorem C5_empty_sample_zero_loss_evidence :
    RL.innerLoss envC5n 0 [] = (RL.LossVal.flt 0, 0, 0) ∧
    MAML.sample [⟨envC5n, fun _ _ => 0⟩] 0 1 [⟨"a", 1, true⟩] =
      .error "autograd.grad expects a tensor loss" := by
  exact ⟨rfl, rfl⟩

namespace TRPO

theorem lineSearch_all_rejected (lossF klF : List ℚ → ℚ)
    (oldLoss maxKl btRatio : ℚ) (oldP stepV : List ℚ) :
    ∀ (n : Nat) (s : ℚ),
    (∀ i < n, ¬(lossF (lsParams oldP stepV (s * btRatio ^ i)) - oldLoss < 0 ∧
        klF (lsParams oldP stepV (s * btRatio ^ i)) < maxKl)) →
    lineSearch lossF klF oldLoss maxKl btRatio oldP stepV n s = oldP := by
  intro n
  induction n with
  | zero => intro s _; rfl
  | succ n ih =>
    intro s h
    have h0 := h 0 (by omega)
    rw [pow_zero, mul_one] at h0
    unfold lineSearch
    rw [if_neg h0]
    apply ih
    intro i hi
    have := h (i + 1) (by omega)
    rwa [pow_succ', ← mul_assoc] at this

theorem lineSearch_characterize (lossF klF : List ℚ → ℚ)
    (oldLoss maxKl btRatio : ℚ) (oldP stepV : List ℚ) :
    ∀ (n : Nat) (s : ℚ),
    lineSearch lossF klF oldLoss maxKl btRatio oldP stepV n s = oldP ∨
    ∃ i < n,
      (lossF (lsParams oldP stepV (s * btRatio ^ i)) - oldLoss < 0 ∧
        klF (lsParams oldP stepV (s * btRatio ^ i)) < maxKl) ∧
      lineSearch lossF klF oldLoss maxKl btRatio oldP stepV n s =
        lsParams oldP stepV (s * btRatio ^ i) := by
  intro n
  induction n with
  | zero => intro s; exact Or.inl rfl
  | succ n ih =>
    intro s
    by_cases hacc : lossF (lsParams oldP stepV s) - oldLoss < 0 ∧
        klF (lsParams oldP stepV s) < maxKl
    · refine Or.inr ⟨0, by omega, ?_, ?_⟩
      · rwa [pow_zero, mul_one]
      · rw [pow_zero, mul_one]
        unfold lineSearch
        rw [if_pos hacc]
    · rcases ih (s * btRatio) with h | ⟨i, hi, hacci, heq⟩
      · left
        unfold lineSearch
        rwa [if_neg hacc]
      · refine Or.inr ⟨i + 1, by omega, ?_, ?_⟩
        · rwa [pow_succ', ← mul_assoc]
        · unfold lineSearch
          rw [if_neg hacc, heq, pow_succ', ← mul_assoc]

theorem dot_smul_left (c : ℚ) : ∀ (a b : List ℚ),
    dot (a.map (c * ·)) b = c * dot a b := by
  intro a
  induction a with
  | nil => intro b; simp [dot]
  | cons x xs ih =>
    intro b
    cases b with
    | nil => simp [dot]
    | cons y ys =>
      simp only [List.map_cons, dot, List.zipWith_cons_cons, List.sum_cons]
      have := ih ys
      unfold dot at this
      rw [this]
      ring

theorem dot_smul_right (c : ℚ) : ∀ (a b : List ℚ),
    dot a (b.map (c * ·)) = c * dot a b := by
  intro a
  induction a with
  | nil => intro b; simp [dot]
  | cons x xs ih =>
    intro b
    cases b with
    | nil => simp [dot]
    | cons y ys =>
      simp only [List.map_cons, dot, List.zipWith_cons_cons, List.sum_cons]
      have := ih ys
      unfold dot at this
      rw [this]
      ring

end TRPO

/-- C2: in the backtracking line search, (i) the returned parameters are
either `old_params` or the parameters of some accepted attempt, acceptance
requiring STRICTLY lower surrogate loss AND KL strictly below `max_kl`;
(ii) when the first attempt (step size 1.0) is accepted the parameters are
exactly `old_params - 1.0 * step`; (iii) when none of the `ls_max_steps`
attempts is accepted the parameters are restored exactly to `old_params`. -/
theorem C2_line_search_accept_and_revert (lossF klF : List ℚ → ℚ)
    (oldLoss maxKl btRatio : ℚ) (oldP stepV : List ℚ) (lsMaxSteps : Nat) :
    (TRPO.trpoLineSearch lossF klF oldLoss maxKl btRatio oldP stepV lsMaxSteps = oldP ∨
      ∃ i < lsMaxSteps,
        (lossF (TRPO.lsParams oldP stepV (btRatio ^ i)) - oldLoss < 0 ∧
          klF (TRPO.lsParams oldP stepV (btRatio ^ i)) < maxKl) ∧
        TRPO.trpoLineSearch lossF klF oldLoss maxKl btRatio oldP stepV lsMaxSteps =
          TRPO.lsParams oldP stepV (btRatio ^ i)) ∧
    ((lossF (TRPO.lsParams oldP stepV 1) - oldLoss < 0 ∧
        klF (TRPO.lsParams oldP stepV 1) < maxKl) → 0 < lsMaxSteps →
      TRPO.trpoLineSearch lossF klF oldLoss maxKl btRatio oldP stepV lsMaxSteps =
        List.zipWith (fun o d => o - 1 * d) oldP stepV) ∧
    ((∀ i < lsMaxSteps,
        ¬(lossF (TRPO.lsParams oldP stepV (btRatio ^ i)) - oldLoss < 0 ∧
          klF (TRPO.lsParams oldP stepV (btRatio ^ i)) < maxKl)) →
      TRPO.trpoLineSearch lossF klF oldLoss maxKl btRatio oldP stepV lsMaxSteps = oldP) := by
  refine ⟨?_, ?_, ?_⟩
  · rcases TRPO.lineSearch_characterize lossF klF oldLoss maxKl btRatio oldP stepV
      lsMaxSteps 1 with h | ⟨i, hi, hacc, heq⟩
    · exact Or.inl h
    · rw [one_mul] at hacc heq
      exact Or.inr ⟨i, hi, hacc, heq⟩
  · intro hacc hpos
    obtain ⟨n, rfl⟩ : ∃ n, lsMaxSteps = n + 1 :=
      ⟨lsMaxSteps - 1, by omega⟩
    unfold TRPO.trpoLineSearch TRPO.lineSearch
    rw [if_pos hacc]
    rfl
  · intro hrej
    apply TRPO.lineSearch_all_rejected
    intro i hi
    rw [one_mul]
    exact hrej i hi

/-- C2 witness: the first attempt is accepted (loss drops from 1 to 0, KL 0
below cap 1), so the parameters are `old - 1.0 * step = [0]`. -/
theorem C2_line_search_accept_and_revert_witness :
    TRPO.trpoLineSearch (fun p => p.headD 0) (fun _ => 0) 1 1 (1/2) [1] [1] 3 = [0] := by
  have h := (C2_line_search_accept_and_revert (fun p => p.headD 0) (fun _ => 0)
    1 1 (1/2) [1] [1] 3).2.1 (by norm_num [TRPO.lsParams]) (by omega)
  rw [h]
  norm_num

/-- C9: the applied trust-region step direction is
`stepdir / sqrt((0.5 * stepdirᵀ H stepdir) / max_kl)`, and for an (ideal)
square root and a linear Hessian-vector operator this scaling makes the step
saturate the trust-region budget: `0.5 * stepᵀ H step = max_kl`. -/
theorem C9_step_direction_scaling (sqrtF : ℚ → ℚ) (Hv : List ℚ → List ℚ)
    (stepdir : List ℚ) (maxKl : ℚ)
    (hhom : ∀ (c : ℚ) (v : List ℚ), Hv (v.map (c * ·)) = (Hv v).map (c * ·))
    (hsq : sqrtF (((1/2) * TRPO.dot stepdir (Hv stepdir)) / maxKl) *
        sqrtF (((1/2) * TRPO.dot stepdir (Hv stepdir)) / maxKl) =
        ((1/2) * TRPO.dot stepdir (Hv stepdir)) / maxKl)
    (hne : sqrtF (((1/2) * TRPO.dot stepdir (Hv stepdir)) / maxKl) ≠ 0) :
    TRPO.trpoStepDir sqrtF Hv stepdir maxKl =
      stepdir.map
        (· / sqrtF (((1/2) * TRPO.dot stepdir (Hv stepdir)) / maxKl)) ∧
    (1/2) * TRPO.dot (TRPO.trpoStepDir sqrtF Hv stepdir maxKl)
        (Hv (TRPO.trpoStepDir sqrtF Hv stepdir maxKl)) = maxKl := by
  set lm := sqrtF (((1/2) * TRPO.dot stepdir (Hv stepdir)) / maxKl) with hlm
  have hdef : TRPO.trpoStepDir sqrtF Hv stepdir maxKl = stepdir.map (· / lm) := rfl
  refine ⟨hdef, ?_⟩
  have hmk : maxKl ≠ 0 := by
    intro h0
    rw [h0, div_zero] at hsq
    exact hne (mul_self_eq_zero.1 hsq)
  have hmap : stepdir.map (· / lm) = stepdir.map (fun x => lm⁻¹ * x) :=
    List.map_congr_left fun x _ => by rw [div_eq_mul_inv, mul_comm]
  rw [hdef, hmap, hhom, TRPO.dot_smul_left, TRPO.dot_smul_right]
  have key : lm * lm * maxKl = (1/2) * TRPO.dot stepdir (Hv stepdir) := by
    rw [hsq, div_mul_cancel₀ _ hmk]
  field_simp
  linear_combination -2 * key

/-- C9 witness: `stepdir = [4]`, the identity Hessian-vector operator and
`max_kl = 2`: `shs = 8`, the Lagrange multiplier is `sqrt(4) = 2`, the step
is `[2]`, and `0.5 * stepᵀ H step = 2 = max_kl`. -/
theorem C9_step_direction_scaling_witness :
    (1/2) * TRPO.dot (TRPO.trpoStepDir (fun _ => 2) (fun v => v) [4] 2)
        ((fun (v : List ℚ) => v) (TRPO.trpoStepDir (fun _ => 2) (fun v => v) [4] 2)) = 2 :=
  (C9_step_direction_scaling (fun _ => 2) (fun v => v) [4] 2
    (fun _ _ => rfl) (by norm_num [TRPO.dot]) (by norm_num)).2
